import Mathlib

/-!
A shallow embedding of the hardly-trie crate (a nibble-branching trie mapping
byte-sequence keys to values) together with proofs about its operations.

The crate contains two implementations:

* `src/lib.rs` defines a Box-based `Trie<T>` at the crate root (embedded here
  as `LibTrie`, its node type as `LibNode`), whose operations consume one byte
  of the key per step, splitting it into a high and a low nibble.
* `src/trie.rs` defines the arena-based `Trie<K, T, N>` (embedded here as
  `Trie`, instantiated at the branching factor N = 16 used by every key
  implementation in the crate), storing nodes in a slotmap arena addressed by
  stable keys, with structural cleanup on delete and a bidirectional iterator.

Machine integers (`usize`, `u8`) are modelled as `Nat` / `Fin 256`; arena keys
(`DefaultKey`) are modelled as `Nat` allocated from a fresh counter; the
slotmap is modelled as an association list.  Loops that the source runs on
recursive heap structure are modelled with an explicit fuel argument bounded
by the arena size, which suffices for every well-formed trie.
-/

set_option maxRecDepth 10000

namespace HardlyTrie

/-- Byte values, the elements of keys. -/
abbrev Byte := Fin 256

/-! ### Path encoding, from the blanket impl of TrieKey for AsRef of u8 slices
(src/trie.rs lines 121-134).  Each byte pushes its high nibble then its low
nibble.  The same single impl serves both byte slices and UTF-8 text: a str
key enters through as_ref as its UTF-8 byte sequence, so a text key is
modelled by its list of UTF-8 bytes. -/

/-- populate_path: for each byte push byte shifted right by 4, then byte
masked with 0x0F (src/trie.rs lines 122-129). -/
def populatePath : List Byte → List Nat → List Nat
  | [], path => path
  | b :: rest, path => populatePath rest (path ++ [b.val >>> 4, b.val &&& 15])

/-- init_path: a vector that is empty (the capacity reservation has no
observable content; src/trie.rs lines 131-133). -/
def initPath (_ : List Byte) : List Nat := []

/-- build_path: populate_path applied to init_path (src/trie.rs
lines 107-111). -/
def buildPath (key : List Byte) : List Nat :=
  populatePath key (initPath key)

/-- Lexicographic strict comparison of index sequences, used to state the
ordering claims about nibble paths and byte keys. -/
def listLt : List Nat → List Nat → Bool
  | _, [] => false
  | [], _ :: _ => true
  | a :: as, b :: bs => if a < b then true else if a = b then listLt as bs else false

/-! ### The crate-root Trie of src/lib.rs (embedded as LibTrie / LibNode) -/

/-- TrieNode of src/lib.rs lines 6-9: an optional value and a 16-slot array
of optional boxed children, the array modelled as a function from Fin 16. -/
inductive LibNode (T : Type) : Type where
  | mk (value : Option T) (next : Fin 16 → Option (LibNode T)) : LibNode T

/-- The value slot of a lib node. -/
def LibNode.value {T : Type} : LibNode T → Option T
  | .mk v _ => v

/-- The child array of a lib node. -/
def LibNode.next {T : Type} : LibNode T → Fin 16 → Option (LibNode T)
  | .mk _ n => n

/-- TrieNode::new (src/lib.rs lines 12-18): no value, 16 empty slots. -/
def LibNode.new {T : Type} : LibNode T := .mk none (fun _ => none)

/-- Read child slot i (the array indexing of src/lib.rs; every index the
source produces is a nibble below 16). -/
def LibNode.child {T : Type} (n : LibNode T) (i : Nat) : Option (LibNode T) :=
  if h : i < 16 then n.next ⟨i, h⟩ else none

/-- Overwrite child slot i with a node (the slot insertion performed by
insert via next_mut, src/lib.rs lines 158-168). -/
def LibNode.setChild {T : Type} (n : LibNode T) (i : Nat) (c : LibNode T) : LibNode T :=
  .mk n.value (fun j => if j.val = i then some c else n.next j)

/-- TrieNode::count_children (src/lib.rs lines 20-28): count the occupied
child slots among indices 0..16. -/
def LibNode.countChildren {T : Type} (n : LibNode T) : Nat :=
  (List.range 16).countP (fun i => (n.child i).isSome)

/-- Number of occupied value slots in the whole subtree, bounded by a fuel
argument (any fuel at least the node depth gives the exact count).  Used to
state the length invariant of spec section 3 against the lib implementation. -/
def LibNode.countValues {T : Type} : Nat → LibNode T → Nat
  | 0, _ => 0
  | fuel + 1, .mk v next =>
    (if v.isSome then 1 else 0) +
      ((List.finRange 16).map (fun j =>
        match next j with
        | none => 0
        | some m => LibNode.countValues fuel m)).sum

/-- Walk child references along a nibble path from a node (used to inspect
the structure the way the specification's structural-cleanup test does). -/
def libNavigate {T : Type} (n : LibNode T) : List Nat → Option (LibNode T)
  | [] => some n
  | i :: rest =>
    match n.child i with
    | none => none
    | some c => libNavigate c rest

/-- Trie::get of src/lib.rs lines 74-95: per key byte, step through the high
nibble child then the low nibble child; at the end read the value slot. -/
def libGet {T : Type} (n : LibNode T) : List Byte → Option T
  | [] => n.value
  | b :: rest =>
    match n.child (b.val >>> 4) with
    | none => none
    | some n1 =>
      match n1.child (b.val &&& 15) with
      | none => none
      | some n2 => libGet n2 rest

/-- The node-level loop of Trie::insert of src/lib.rs lines 148-171: create
the high-nibble child and then the low-nibble child when missing, recurse on
the remaining bytes, and at the terminal replace the value slot, returning
the previous value. -/
def libInsertGo {T : Type} (n : LibNode T) : List Byte → T → LibNode T × Option T
  | [], v => (.mk (some v) n.next, n.value)
  | b :: rest, v =>
    let n1 := (n.child (b.val >>> 4)).getD LibNode.new
    let n2 := (n1.child (b.val &&& 15)).getD LibNode.new
    let r := libInsertGo n2 rest v
    (n.setChild (b.val >>> 4) (n1.setChild (b.val &&& 15) r.1), r.2)

/-- The node-level loop of Trie::delete of src/lib.rs lines 122-145: walk the
two nibble children per byte, returning absent (and leaving the node intact)
when a slot is missing, and take the terminal value slot.  The source
performs no cleanup (its TODO comment) and the caller performs no length
update. -/
def libDeleteGo {T : Type} (n : LibNode T) : List Byte → LibNode T × Option T
  | [] => (.mk none n.next, n.value)
  | b :: rest =>
    match n.child (b.val >>> 4) with
    | none => (n, none)
    | some n1 =>
      match n1.child (b.val &&& 15) with
      | none => (n, none)
      | some n2 =>
        let r := libDeleteGo n2 rest
        (n.setChild (b.val >>> 4) (n1.setChild (b.val &&& 15) r.1), r.2)

/-- Trie of src/lib.rs lines 59-62: a length counter and a root node. -/
structure LibTrie (T : Type) where
  len : Nat
  root : LibNode T

/-- Trie::new of src/lib.rs lines 65-71. -/
def LibTrie.new {T : Type} : LibTrie T := ⟨0, LibNode.new⟩

/-- Trie::get at the trie level. -/
def LibTrie.get {T : Type} (t : LibTrie T) (key : List Byte) : Option T :=
  libGet t.root key

/-- Trie::insert of src/lib.rs lines 148-176: run the node loop, then
increment the length exactly when the returned previous value is absent. -/
def LibTrie.insert {T : Type} (t : LibTrie T) (key : List Byte) (v : T) :
    LibTrie T × Option T :=
  let r := libInsertGo t.root key v
  (⟨t.len + (if r.2.isSome then 0 else 1), r.1⟩, r.2)

/-- Trie::delete of src/lib.rs lines 122-145: run the node loop and return
its result.  The source never touches the length counter in delete. -/
def LibTrie.delete {T : Type} (t : LibTrie T) (key : List Byte) :
    LibTrie T × Option T :=
  let r := libDeleteGo t.root key
  (⟨t.len, r.1⟩, r.2)

/-! ### The arena Trie of src/trie.rs -/

/-- Modelled from the spec: the arena variant of TrieNode used by
src/trie.rs (whose calls are child_key, child_set with an arena key,
child_remove, has_child, has_multiple_children and the value accessors) is
not present under src; spec section 4.2 describes it as an optional value
slot plus a fixed array of 16 optional child references, where a child
reference under the arena strategy is a stable handle into the node store.
Handles are modelled as Nat, the 16-slot array as a function from Fin 16. -/
structure TrieNode (T : Type) where
  value : Option T
  next : Fin 16 → Option Nat

/-- TrieNode::new: no value, 16 empty child slots. -/
def TrieNode.new {T : Type} : TrieNode T := ⟨none, fun _ => none⟩

/-- child_key i: the optional arena key stored in slot i (every index the
source produces is a nibble below 16). -/
def TrieNode.childKey {T : Type} (n : TrieNode T) (i : Nat) : Option Nat :=
  if h : i < 16 then n.next ⟨i, h⟩ else none

/-- child_set i k: store handle k in slot i. -/
def TrieNode.childSet {T : Type} (n : TrieNode T) (i : Nat) (k : Nat) : TrieNode T :=
  ⟨n.value, fun j => if j.val = i then some k else n.next j⟩

/-- child_remove i: clear slot i. -/
def TrieNode.childRemove {T : Type} (n : TrieNode T) (i : Nat) : TrieNode T :=
  ⟨n.value, fun j => if j.val = i then none else n.next j⟩

/-- has_child: some slot among 0..16 is occupied (the non-bitmap loop of
src/trie_node.rs lines 24-35). -/
def TrieNode.hasChild {T : Type} (n : TrieNode T) : Bool :=
  (List.range 16).any (fun i => (n.childKey i).isSome)

/-- has_multiple_children: more than one slot among 0..16 is occupied (the
counting loop of src/trie_node.rs lines 37-52; the short circuit does not
change the result). -/
def TrieNode.hasMultipleChildren {T : Type} (n : TrieNode T) : Bool :=
  1 < (List.range 16).countP (fun i => (n.childKey i).isSome)

/-- The child keys of a node in increasing slot order. -/
def TrieNode.refsOf {T : Type} (n : TrieNode T) : List Nat :=
  (List.range 16).filterMap (fun i => n.childKey i)

/-- Association-list lookup, modelling SlotMap::get keyed by Nat handles. -/
def alookup {A : Type} (k : Nat) : List (Nat × A) → Option A
  | [] => none
  | (j, v) :: rest => if j = k then some v else alookup k rest

/-- Trie of src/trie.rs lines 114-119: a length counter, the arena (as an
association list of handle / node pairs together with the next fresh
handle), and the root handle. -/
structure Trie (T : Type) where
  len : Nat
  arena : List (Nat × TrieNode T)
  nextKey : Nat
  root : Nat

/-- The handles present in the arena. -/
def Trie.keys {T : Type} (t : Trie T) : List Nat :=
  t.arena.map Prod.fst

/-- All child references stored anywhere in the arena. -/
def Trie.allRefs {T : Type} (t : Trie T) : List Nat :=
  t.arena.flatMap (fun e => e.2.refsOf)

/-- Trie::new of src/trie.rs lines 138-147: an arena holding just a fresh
root node, length 0. -/
def Trie.new {T : Type} : Trie T :=
  ⟨0, [(0, TrieNode.new)], 1, 0⟩

/-- Replace the node stored at handle k by f applied to it (SlotMap::get_mut
followed by a mutation). -/
def Trie.updateNode {T : Type} (t : Trie T) (k : Nat) (f : TrieNode T → TrieNode T) :
    Trie T :=
  { t with arena := t.arena.map (fun e => if e.1 = k then (e.1, f e.2) else e) }

/-- The navigation loop shared by get, get_mut and insert: starting from
handle k, follow the child slot named by each path index, failing when the
current handle is absent from the arena or the slot is empty. -/
def Trie.navKey {T : Type} (t : Trie T) (k : Nat) : List Nat → Option Nat
  | [] => some k
  | i :: rest =>
    match alookup k t.arena with
    | none => none
    | some node =>
      match node.childKey i with
      | none => none
      | some ck => t.navKey ck rest

/-- The navigation loop of delete (src/trie.rs lines 181-193), recording
every visited handle starting with the start handle. -/
def Trie.navKeys {T : Type} (t : Trie T) (k : Nat) : List Nat → Option (List Nat)
  | [] => some [k]
  | i :: rest =>
    match alookup k t.arena with
    | none => none
    | some node =>
      match node.childKey i with
      | none => none
      | some ck => (t.navKeys ck rest).map (fun l => k :: l)

/-- Trie::get of src/trie.rs lines 150-162 applied to an already encoded
path: navigate from the root, then read the terminal node's value. -/
def Trie.getPath {T : Type} (t : Trie T) (path : List Nat) : Option T :=
  match t.navKey t.root path with
  | none => none
  | some k =>
    match alookup k t.arena with
    | none => none
    | some node => node.value

/-- Trie::get of src/trie.rs lines 150-162 on a byte key. -/
def Trie.get {T : Type} (t : Trie T) (key : List Byte) : Option T :=
  t.getPath (buildPath key)

/-- The loop of Trie::insert of src/trie.rs lines 268-297, from handle k.
At each step an existing child is followed, and a missing child slot is
filled with a freshly allocated empty node; at the terminal the value is
replaced, the length incremented exactly when the prior value was absent.
The source unwraps its arena lookups; a failing lookup (impossible in a
well-formed trie) is modelled as the outer none. -/
def Trie.insertGo {T : Type} (t : Trie T) (k : Nat) : List Nat → T →
    Option (Trie T × Option T)
  | [], v =>
    match alookup k t.arena with
    | none => none
    | some node =>
      some
        ({ t.updateNode k (fun n => ⟨some v, n.next⟩) with
            len := t.len + (if node.value.isSome then 0 else 1) },
          node.value)
  | i :: rest, v =>
    match alookup k t.arena with
    | none => none
    | some node =>
      match node.childKey i with
      | some ck => t.insertGo ck rest v
      | none =>
        let nk := t.nextKey
        let t1 : Trie T :=
          { t with arena := (nk, TrieNode.new) :: t.arena, nextKey := nk + 1 }
        let t2 := t1.updateNode k (fun n => n.childSet i nk)
        t2.insertGo nk rest v

/-- The allocation step of the missing-child branch of Trie.insertGo (the
let-bound t1/t2 above, from src/trie.rs lines 281-285): push a fresh node onto
the arena and link it as nibble-child i of the node at key k. -/
def Trie.insertGraft {T : Type} (t : Trie T) (k i : Nat) : Trie T :=
  ({ t with arena := (t.nextKey, TrieNode.new) :: t.arena, nextKey := t.nextKey + 1 } :
    Trie T).updateNode k (fun n => n.childSet i t.nextKey)

/-- Trie::insert of src/trie.rs lines 268-297 on an encoded path. -/
def Trie.insertPath {T : Type} (t : Trie T) (path : List Nat) (v : T) :
    Option (Trie T × Option T) :=
  t.insertGo t.root path v

/-- Trie::insert of src/trie.rs lines 268-297 on a byte key. -/
def Trie.insert {T : Type} (t : Trie T) (key : List Byte) (v : T) :
    Option (Trie T × Option T) :=
  t.insertPath (buildPath key) v

/-- The cleanup-point scan of Trie::delete (src/trie.rs lines 201-222): walk
the recorded handle chain from the deepest entry towards the root; the
terminal entry (index m) is a keep point when it has a child, other entries
when they hold a value or have multiple children; index 0 (the root) is
always a keep point.  Input is the enumerated handle chain reversed; the
outer none models the early return of delete when an arena lookup fails
during the scan. -/
def Trie.scanClean {T : Type} (t : Trie T) (m : Nat) :
    List (Nat × Nat) → Option (Option Nat)
  | [] => some none
  | (i, key) :: rest =>
    match alookup key t.arena with
    | none => none
    | some node =>
      let keep :=
        if i = m then node.hasChild
        else node.value.isSome || node.hasMultipleChildren
      if keep then some (some i)
      else if i = 0 then some (some 0)
      else t.scanClean m rest

/-- The unreachable-node collection loop of
Trie::cleanup_unreachable_nodes (src/trie.rs lines 246-266): an explicit
stack walk gathering every handle reachable from the stack, modelled with a
fuel argument (the source loop terminates because a well-formed arena is a
finite tree; fuel one more than the arena size suffices there).  The order
of the collected handles differs from the source's stack order, which is
irrelevant because the collection is only used as the set of handles to
remove. -/
def Trie.cleanupLoop {T : Type} (t : Trie T) : Nat → List Nat → List Nat → List Nat
  | 0, _, acc => acc
  | _ + 1, [], acc => acc
  | fuel + 1, k :: stack, acc =>
    match alookup k t.arena with
    | none => t.cleanupLoop fuel stack acc
    | some node => t.cleanupLoop fuel (node.refsOf ++ stack) (k :: acc)

/-- The handles collected by cleanup_unreachable_nodes starting from one
handle. -/
def Trie.cleanupCollect {T : Type} (t : Trie T) (start : Nat) : List Nat :=
  t.cleanupLoop (t.arena.length + 1) [start] []

/-- Remove a set of handles from the arena (the removal loop at the end of
cleanup_unreachable_nodes). -/
def Trie.removeKeys {T : Type} (t : Trie T) (ks : List Nat) : Trie T :=
  { t with arena := t.arena.filter (fun e => !(ks.contains e.1)) }

/-- Trie::delete of src/trie.rs lines 179-244 on an encoded path, returning
the trie after the call together with the returned value.  Mirrors the
source: navigate recording the handle chain; return absent when navigation
fails or the terminal has no value; scan for the cleanup point; take the
terminal value and decrement the length; when the cleanup point is a proper
ancestor, remove its child slot along the path and remove every handle
reachable from the detached child.  Each question-mark early return of the
source is a branch returning the trie as mutated so far with none. -/
def Trie.deletePath {T : Type} (t : Trie T) (path : List Nat) : Trie T × Option T :=
  match t.navKeys t.root path with
  | none => (t, none)
  | some nodePath =>
    let x := nodePath.getLastD t.root
    match alookup x t.arena with
    | none => (t, none)
    | some tnode =>
      match tnode.value with
      | none => (t, none)
      | some v =>
        match t.scanClean (nodePath.length - 1) nodePath.enum.reverse with
        | none => (t, none)
        | some cleanupIndex =>
          let t1 : Trie T :=
            { t.updateNode x (fun n => ⟨none, n.next⟩) with len := t.len - 1 }
          match cleanupIndex with
          | none => (t1, some v)
          | some ci =>
            if ci < path.length then
              let parentKey := nodePath.getD ci 0
              let slot := path.getD ci 0
              match alookup parentKey t1.arena with
              | none => (t1, none)
              | some pnode =>
                match pnode.childKey slot with
                | none => (t1, none)
                | some ck =>
                  let t2 := t1.updateNode parentKey (fun n => n.childRemove slot)
                  (t2.removeKeys (t2.cleanupCollect ck), some v)
            else (t1, some v)

/-- Trie::delete of src/trie.rs lines 179-244 on a byte key. -/
def Trie.delete {T : Type} (t : Trie T) (key : List Byte) : Trie T × Option T :=
  t.deletePath (buildPath key)

/-- is_empty of src/trie.rs lines 303-305. -/
def Trie.isEmpty {T : Type} (t : Trie T) : Bool :=
  t.len == 0

/-- Well-formedness of an arena trie, the data-model invariants of spec
section 3 restated structurally: the root handle is stored; handles are
distinct; every child reference names a stored handle other than the root;
no handle is referenced from two slots; every stored handle is below the
fresh counter.  These hold for every trie
reachable through the public operations and make the arena a tree rooted at
the root handle. -/
def Trie.wf {T : Type} (t : Trie T) : Bool :=
  (alookup t.root t.arena).isSome
    && decide t.keys.Nodup
    && t.allRefs.all (fun r => (alookup r t.arena).isSome && decide (r ≠ t.root))
    && decide t.allRefs.Nodup
    && t.keys.all (fun k => decide (k < t.nextKey))

/-! ### The iterator of src/trie.rs lines 5-101 -/

/-- TrieIter::collect_items (src/trie.rs lines 34-55): depth-first walk from
a handle, emitting the node's value under the current path and then visiting
children in increasing slot order; fuel-bounded (the source recursion
terminates on the finite tree of a well-formed trie; fuel one more than the
arena size suffices there). -/
def Trie.collectItems {T : Type} (t : Trie T) :
    Nat → Nat → List Nat → List (List Nat × T)
  | 0, _, _ => []
  | fuel + 1, k, path =>
    match alookup k t.arena with
    | none => []
    | some node =>
      (match node.value with
        | some v => [(path, v)]
        | none => []) ++
      (List.range 16).flatMap (fun i =>
        match node.childKey i with
        | none => []
        | some ck => t.collectItems fuel ck (path ++ [i]))

/-- The materialized item list of TrieIter::new (src/trie.rs lines 19-32). -/
def Trie.iterItems {T : Type} (t : Trie T) : List (List Nat × T) :=
  t.collectItems (t.arena.length + 1) t.root []

/-- TrieIter (src/trie.rs lines 5-13): the materialized items together with
the two cursor indices. -/
structure TrieIter (T : Type) where
  items : List (List Nat × T)
  frontIndex : Nat
  backIndex : Nat

/-- TrieIter::new (src/trie.rs lines 19-32): front cursor 0, back cursor at
the last element (0 when there are no items). -/
def Trie.iter {T : Type} (t : Trie T) : TrieIter T :=
  ⟨t.iterItems, 0, if t.iterItems.isEmpty then 0 else t.iterItems.length - 1⟩

/-- Iterator::next (src/trie.rs lines 64-72): absent once the cursors cross
or the item list is empty, otherwise the element at the front cursor, which
then advances.  The in-bounds indexing of the source is modelled by an
optional lookup, which always succeeds in the states the iterator reaches. -/
def TrieIter.next {T : Type} (it : TrieIter T) :
    TrieIter T × Option (List Nat × T) :=
  if it.backIndex < it.frontIndex || it.items.isEmpty then (it, none)
  else ({ it with frontIndex := it.frontIndex + 1 }, it.items.get? it.frontIndex)

/-- Iterator::size_hint (src/trie.rs lines 74-81): the exact remaining count
as both bounds. -/
def TrieIter.sizeHint {T : Type} (it : TrieIter T) : Nat × Option Nat :=
  let remaining :=
    if it.backIndex < it.frontIndex || it.items.isEmpty then 0
    else it.backIndex - it.frontIndex + 1
  (remaining, some remaining)

/-- DoubleEndedIterator::next_back (src/trie.rs lines 88-100): absent once
the cursors cross or the item list is empty, otherwise the element at the
back cursor; a back cursor at 0 marks exhaustion by setting the front cursor
to 1, otherwise the back cursor retreats. -/
def TrieIter.nextBack {T : Type} (it : TrieIter T) :
    TrieIter T × Option (List Nat × T) :=
  if it.backIndex < it.frontIndex || it.items.isEmpty then (it, none)
  else
    let item := it.items.get? it.backIndex
    if it.backIndex = 0 then ({ it with frontIndex := 1 }, item)
    else ({ it with backIndex := it.backIndex - 1 }, item)

/-- One consumption step: true calls next, false calls next_back. -/
def TrieIter.step {T : Type} (it : TrieIter T) : Bool → TrieIter T × Option (List Nat × T)
  | true => it.next
  | false => it.nextBack

/-- Run an interleaved sequence of next / next_back calls, returning the
final iterator state and every returned element. -/
def TrieIter.run {T : Type} (it : TrieIter T) :
    List Bool → TrieIter T × List (Option (List Nat × T))
  | [] => (it, [])
  | op :: ops =>
    let r := it.step op
    let rest := r.1.run ops
    (rest.1, r.2 :: rest.2)

/-- Exhaust the iterator forward, collecting every element next returns. -/
def TrieIter.forwardRun {T : Type} : Nat → TrieIter T → List (List Nat × T)
  | 0, _ => []
  | fuel + 1, it =>
    match it.next with
    | (it2, some x) => x :: TrieIter.forwardRun fuel it2
    | (_, none) => []

/-- Exhaust the iterator backward, collecting every element next_back
returns. -/
def TrieIter.backwardRun {T : Type} : Nat → TrieIter T → List (List Nat × T)
  | 0, _ => []
  | fuel + 1, it =>
    match it.nextBack with
    | (it2, some x) => x :: TrieIter.backwardRun fuel it2
    | (_, none) => []

/-- The effect of the insert loop (src/trie.rs lines 268-297) run from
handle k along path p with value v: the relation between the trie before and
after the call, the returned previous value old, the terminal handle x and
the list of freshly allocated handles.  This is the induction invariant from
which the insert claims are derived. -/
structure InsertSpec (T : Type) (t : Trie T) (k : Nat) (p : List Nat) (v : T)
    (t' : Trie T) (old : Option T) (x : Nat) (fresh : List Nat) : Prop where
  nav : t'.navKey k p = some x
  val_x : ∃ n', alookup x t'.arena = some n' ∧ n'.value = some v
  old_eq : old = (t.navKey k p).bind (fun y => (alookup y t.arena).bind TrieNode.value)
  root_eq : t'.root = t.root
  len_eq : t'.len = t.len + (if old.isSome then 0 else 1)
  next_ge : t.nextKey ≤ t'.nextKey
  fresh_nodup : fresh.Nodup
  fresh_range : ∀ f ∈ fresh, t.nextKey ≤ f ∧ f < t'.nextKey
  keys_perm : List.Perm t'.keys (fresh ++ t.keys)
  old_nodes : ∀ j n, alookup j t.arena = some n →
    ∃ n', alookup j t'.arena = some n' ∧
      n'.value = (if j = x then some v else n.value) ∧
      (∀ i, n.childKey i = none →
        n'.childKey i = none ∨ ∃ f ∈ fresh, n'.childKey i = some f) ∧
      (∀ i c, n.childKey i = some c → n'.childKey i = some c)
  fresh_nodes : ∀ j ∈ fresh, ∃ n', alookup j t'.arena = some n' ∧
    n'.value = (if j = x then some v else none) ∧
    (∀ i c, n'.childKey i = some c → c ∈ fresh)
  refs_new : ∃ newRefs : List Nat, List.Perm t'.allRefs (newRefs ++ t.allRefs) ∧
    newRefs.Nodup ∧ ∀ r ∈ newRefs, r ∈ fresh
  x_mem : (alookup x t.arena).isSome = true ∨ x ∈ fresh

/-! ### Lemmas about the path encoding -/

theorem val_shiftRight (b : Byte) : b.val >>> 4 = b.val / 16 := by
  revert b; decide

theorem val_land (b : Byte) : b.val &&& 15 = b.val % 16 := by
  revert b; decide

theorem populatePath_eq (key : List Byte) :
    ∀ acc, populatePath key acc =
      acc ++ key.flatMap (fun b => [b.val >>> 4, b.val &&& 15]) := by
  induction key with
  | nil => intro acc; simp [populatePath]
  | cons b rest ih =>
    intro acc
    simp [populatePath, ih]

theorem buildPath_nil : buildPath [] = [] := rfl

theorem buildPath_cons (b : Byte) (rest : List Byte) :
    buildPath (b :: rest) = (b.val >>> 4) :: (b.val &&& 15) :: buildPath rest := by
  simp [buildPath, initPath, populatePath_eq]

theorem buildPath_length (key : List Byte) :
    (buildPath key).length = 2 * key.length := by
  induction key with
  | nil => rfl
  | cons b rest ih => simp [buildPath_cons, ih]; omega

theorem buildPath_lt_16 (key : List Byte) : ∀ i ∈ buildPath key, i < 16 := by
  induction key with
  | nil => simp [buildPath_nil]
  | cons b rest ih =>
    intro i hi
    rw [buildPath_cons, List.mem_cons, List.mem_cons] at hi
    rcases hi with h | h | h
    · subst h
      rw [val_shiftRight]
      have hb := b.isLt
      omega
    · subst h
      rw [val_land]
      have hb := b.isLt
      omega
    · exact ih i h

theorem buildPath_layout (key : List Byte) :
    ∀ (i : Nat) (h : i < key.length),
      (buildPath key).getD (2 * i) 17 = (key.get ⟨i, h⟩).val >>> 4 ∧
      (buildPath key).getD (2 * i + 1) 17 = (key.get ⟨i, h⟩).val &&& 15 := by
  induction key with
  | nil => intro i h; simp at h
  | cons b rest ih =>
    intro i h
    match i with
    | 0 => simp [buildPath_cons]
    | j + 1 =>
      have hj : j < rest.length := by simpa using h
      have h2 : 2 * (j + 1) = 2 * j + 1 + 1 := by omega
      rw [buildPath_cons, h2]
      simp only [List.getD_cons_succ]
      exact ⟨(ih j hj).1, (ih j hj).2⟩

theorem byte_eq_of_nibbles_eq (b c : Byte) (h1 : b.val >>> 4 = c.val >>> 4)
    (h2 : b.val &&& 15 = c.val &&& 15) : b = c := by
  rw [val_shiftRight, val_shiftRight] at h1
  rw [val_land, val_land] at h2
  have : b.val = c.val := by omega
  exact Fin.eq_of_val_eq this

theorem buildPath_injective (k1 : List Byte) :
    ∀ k2, buildPath k1 = buildPath k2 → k1 = k2 := by
  induction k1 with
  | nil =>
    intro k2 h
    cases k2 with
    | nil => rfl
    | cons c r2 => rw [buildPath_nil, buildPath_cons] at h; exact absurd h (by simp)
  | cons b r1 ih =>
    intro k2 h
    cases k2 with
    | nil => rw [buildPath_nil, buildPath_cons] at h; exact absurd h (by simp)
    | cons c r2 =>
      rw [buildPath_cons, buildPath_cons] at h
      have h1 := List.head_eq_of_cons_eq h
      have h' := List.tail_eq_of_cons_eq h
      have h2 := List.head_eq_of_cons_eq h'
      have h3 := List.tail_eq_of_cons_eq h'
      rw [byte_eq_of_nibbles_eq b c h1 h2, ih r2 h3]

theorem listLt_buildPath (k1 : List Byte) :
    ∀ k2, listLt (buildPath k1) (buildPath k2) =
      listLt (k1.map Fin.val) (k2.map Fin.val) := by
  induction k1 with
  | nil =>
    intro k2
    cases k2 with
    | nil => rfl
    | cons c r2 => rw [buildPath_nil, buildPath_cons]; rfl
  | cons b r1 ih =>
    intro k2
    cases k2 with
    | nil => rw [buildPath_nil, buildPath_cons]; rfl
    | cons c r2 =>
      rw [buildPath_cons, buildPath_cons]
      have hb := b.isLt
      have hc := c.isLt
      have hbs := val_shiftRight b
      have hbl := val_land b
      have hcs := val_shiftRight c
      have hcl := val_land c
      simp only [List.map_cons, listLt]
      by_cases hlt : b.val >>> 4 < c.val >>> 4
      · have : b.val < c.val := by omega
        simp [hlt, this]
      · by_cases heq : b.val >>> 4 = c.val >>> 4
        · by_cases hlt2 : b.val &&& 15 < c.val &&& 15
          · have : b.val < c.val := by omega
            simp [hlt, heq, hlt2, this]
          · by_cases heq2 : b.val &&& 15 = c.val &&& 15
            · have hv : b.val = c.val := by omega
              simp [hlt, heq, hlt2, heq2, hv, ih r2]
            · have h1 : ¬ b.val < c.val := by omega
              have h2 : ¬ b.val = c.val := by omega
              simp [hlt, heq, hlt2, heq2, h1, h2]
        · have h1 : ¬ b.val < c.val := by omega
          have h2 : ¬ b.val = c.val := by omega
          simp [hlt, heq, h1, h2]

/-- C7: build_path writes, for byte i of the key, its high 4 bits at path
position 2i and its low 4 bits at position 2i+1; the encoding is injective;
lexicographic comparison of nibble paths agrees with unsigned lexicographic
comparison of the byte keys; and the text-key implementation (which passes
its UTF-8 bytes through the same blanket impl) produces the identical path
whenever the text's UTF-8 bytes equal the byte slice's contents. -/
theorem claim_C7_path_encoding :
    (∀ key : List Byte, (buildPath key).length = 2 * key.length) ∧
    (∀ (key : List Byte) (i : Nat) (h : i < key.length),
      (buildPath key).getD (2 * i) 17 = (key.get ⟨i, h⟩).val >>> 4 ∧
      (buildPath key).getD (2 * i + 1) 17 = (key.get ⟨i, h⟩).val &&& 15) ∧
    (∀ k1 k2 : List Byte, buildPath k1 = buildPath k2 → k1 = k2) ∧
    (∀ k1 k2 : List Byte,
      listLt (buildPath k1) (buildPath k2) = listLt (k1.map Fin.val) (k2.map Fin.val)) ∧
    (∀ textBytes sliceBytes : List Byte,
      textBytes = sliceBytes → buildPath textBytes = buildPath sliceBytes) :=
  ⟨buildPath_length, buildPath_layout, buildPath_injective,
    listLt_buildPath, fun _ _ h => by rw [h]⟩

/-- C7 witness: the injectivity conjunct applied to the concrete encoded key
0x12 0x34, its hypothesis discharged by evaluation. -/
theorem claim_C7_path_encoding_witness :
    ([(18 : Byte), 52] : List Byte) = [18, 52] :=
  claim_C7_path_encoding.2.2.1 [18, 52] [18, 52] (by decide)

/-! ### Lemmas about the crate-root implementation of src/lib.rs -/

theorem hiNibble_lt (b : Byte) : b.val >>> 4 < 16 := by
  rw [val_shiftRight]
  have := b.isLt
  omega

theorem loNibble_lt (b : Byte) : b.val &&& 15 < 16 := by
  rw [val_land]
  have := b.isLt
  omega

theorem nibbles_ne (b c : Byte) (h : b ≠ c) :
    b.val >>> 4 ≠ c.val >>> 4 ∨
      (b.val >>> 4 = c.val >>> 4 ∧ b.val &&& 15 ≠ c.val &&& 15) := by
  by_cases h1 : b.val >>> 4 = c.val >>> 4
  · exact Or.inr ⟨h1, fun h2 => h (byte_eq_of_nibbles_eq b c h1 h2)⟩
  · exact Or.inl h1

theorem LibNode.value_mk {T : Type} (v : Option T) (f : Fin 16 → Option (LibNode T)) :
    (LibNode.mk v f).value = v := rfl

theorem LibNode.next_mk {T : Type} (v : Option T) (f : Fin 16 → Option (LibNode T)) :
    (LibNode.mk v f).next = f := rfl

theorem LibNode.setChild_value {T : Type} (n : LibNode T) (i : Nat) (c : LibNode T) :
    (n.setChild i c).value = n.value := rfl

theorem LibNode.child_setChild_self {T : Type} (n : LibNode T) (i : Nat) (c : LibNode T)
    (h : i < 16) : (n.setChild i c).child i = some c := by
  simp [LibNode.child, LibNode.setChild, LibNode.next_mk, h]

theorem LibNode.child_setChild_ne {T : Type} (n : LibNode T) (i j : Nat) (c : LibNode T)
    (h : j ≠ i) : (n.setChild i c).child j = n.child j := by
  by_cases hj : j < 16 <;>
    simp [LibNode.child, LibNode.setChild, LibNode.next_mk, hj, h]

theorem LibNode.child_new {T : Type} (i : Nat) : (LibNode.new : LibNode T).child i = none := by
  by_cases h : i < 16 <;> simp [LibNode.child, LibNode.new, LibNode.next_mk, h]

theorem libGet_new {T : Type} (key : List Byte) : libGet (LibNode.new : LibNode T) key = none := by
  cases key with
  | nil => rfl
  | cons b rest => simp [libGet, LibNode.child_new]

theorem libGet_mk_next {T : Type} (n : LibNode T) (w : Option T) (b : Byte) (r : List Byte) :
    libGet (LibNode.mk w n.next) (b :: r) = libGet n (b :: r) := by
  cases n with
  | mk v f => rfl

theorem libInsertGo_snd {T : Type} (key : List Byte) :
    ∀ (n : LibNode T) (v : T), (libInsertGo n key v).2 = libGet n key := by
  induction key with
  | nil => intro n v; rfl
  | cons b rest ih =>
    intro n v
    cases hhi : n.child (b.val >>> 4) with
    | none =>
      simp only [libInsertGo, libGet, hhi, Option.getD_none, ih, LibNode.child_new,
        libGet_new]
    | some n1 =>
      cases hlo : n1.child (b.val &&& 15) with
      | none =>
        simp only [libInsertGo, libGet, hhi, hlo, Option.getD_some, Option.getD_none,
          ih, libGet_new]
      | some n2 =>
        simp only [libInsertGo, libGet, hhi, hlo, Option.getD_some, ih]

theorem libGet_insertGo_self {T : Type} (key : List Byte) :
    ∀ (n : LibNode T) (v : T), libGet (libInsertGo n key v).1 key = some v := by
  induction key with
  | nil => intro n v; rfl
  | cons b rest ih =>
    intro n v
    simp only [libInsertGo, libGet,
      LibNode.child_setChild_self _ _ _ (hiNibble_lt b),
      LibNode.child_setChild_self _ _ _ (loNibble_lt b)]
    exact ih _ v

theorem libGet_insertGo_ne {T : Type} (key : List Byte) :
    ∀ (n : LibNode T) (v : T) (key' : List Byte), key ≠ key' →
      libGet (libInsertGo n key v).1 key' = libGet n key' := by
  induction key with
  | nil =>
    intro n v key' hne
    cases key' with
    | nil => exact absurd rfl hne
    | cons c r' => exact libGet_mk_next n (some v) c r'
  | cons b rest ih =>
    intro n v key' hne
    cases key' with
    | nil =>
      simp only [libInsertGo, libGet, LibNode.setChild_value]
    | cons c r' =>
      by_cases hbc : b = c
      · subst hbc
        have hr : rest ≠ r' := fun h => hne (by rw [h])
        cases hhi : n.child (b.val >>> 4) with
        | none =>
          simp only [libInsertGo, libGet, hhi, Option.getD_none,
            LibNode.child_setChild_self _ _ _ (hiNibble_lt b),
            LibNode.child_setChild_self _ _ _ (loNibble_lt b),
            ih _ v r' hr, LibNode.child_new, libGet_new]
        | some n1 =>
          cases hlo : n1.child (b.val &&& 15) with
          | none =>
            simp only [libInsertGo, libGet, hhi, hlo, Option.getD_some, Option.getD_none,
              LibNode.child_setChild_self _ _ _ (hiNibble_lt b),
              LibNode.child_setChild_self _ _ _ (loNibble_lt b),
              ih _ v r' hr, libGet_new]
          | some n2 =>
            simp only [libInsertGo, libGet, hhi, hlo, Option.getD_some,
              LibNode.child_setChild_self _ _ _ (hiNibble_lt b),
              LibNode.child_setChild_self _ _ _ (loNibble_lt b),
              ih _ v r' hr]
      · rcases nibbles_ne b c hbc with hhi | ⟨hhi, hlo⟩
        · simp only [libInsertGo, libGet,
            LibNode.child_setChild_ne _ _ _ _ (Ne.symm hhi)]
        · have hhi2 : (c.val >>> 4) = (b.val >>> 4) := hhi.symm
          cases hhin : n.child (b.val >>> 4) with
          | none =>
            simp only [libInsertGo, libGet, hhi2, hhin, Option.getD_none,
              LibNode.child_setChild_self _ _ _ (hiNibble_lt b),
              LibNode.child_setChild_ne _ _ _ _ (Ne.symm hlo),
              LibNode.child_new]
          | some n1 =>
            simp only [libInsertGo, libGet, hhi2, hhin, Option.getD_some,
              LibNode.child_setChild_self _ _ _ (hiNibble_lt b),
              LibNode.child_setChild_ne _ _ _ _ (Ne.symm hlo)]

theorem LibTrie.insert_snd {T : Type} (t : LibTrie T) (key : List Byte) (v : T) :
    (t.insert key v).2 = t.get key :=
  libInsertGo_snd key t.root v

theorem LibTrie.get_insert_self {T : Type} (t : LibTrie T) (key : List Byte) (v : T) :
    (t.insert key v).1.get key = some v :=
  libGet_insertGo_self key t.root v

theorem LibTrie.get_insert_ne {T : Type} (t : LibTrie T) (key key' : List Byte) (v : T)
    (h : key ≠ key') : (t.insert key v).1.get key' = t.get key' :=
  libGet_insertGo_ne key t.root v key' h

theorem LibTrie.insert_len {T : Type} (t : LibTrie T) (key : List Byte) (v : T) :
    (t.insert key v).1.len = t.len + (if (t.get key).isSome then 0 else 1) := by
  simp only [LibTrie.insert, libInsertGo_snd, LibTrie.get]

/-! ### Evaluations of the src/lib.rs delete at the inputs where it
contradicts the specification -/

/-- C1: evaluation of the crate-root Trie of src/lib.rs at the failing
input.  After inserting key 0x61 with value 1 (so len() is 1 and the key is
present), delete of that key returns the stored value as the claim states,
but leaves len() at 1: Trie::delete in src/lib.rs takes the terminal value
without ever decrementing the length counter, while the claim requires
len() to decrease by exactly 1. -/
theorem claim_C1_lib_delete_len_unchanged :
    ((LibTrie.new : LibTrie Nat).insert [97] 1).1.len = 1 ∧
    (((LibTrie.new : LibTrie Nat).insert [97] 1).1.delete [97]).2 = some 1 ∧
    (((LibTrie.new : LibTrie Nat).insert [97] 1).1.delete [97]).1.len = 1 := by
  exact ⟨by decide, by decide, by decide⟩

/-- C2: evaluation of the crate-root Trie of src/lib.rs at the claim's own
example.  Insert the UTF-8 keys of "test" (value 1) and "testing" (value 2),
then delete "testing": the delete returns the stored value, but the node
reached by the path of "test" still reports one child — src/lib.rs performs
no structural cleanup at all (its TODO comment), so the dead "ing" chain is
left in the store, while the claim requires that node to report zero
children.  The node does still hold value 1, as the claim also states. -/
theorem claim_C2_lib_delete_no_cleanup :
    ((((LibTrie.new : LibTrie Nat).insert [116, 101, 115, 116] 1).1.insert
        [116, 101, 115, 116, 105, 110, 103] 2).1.delete
        [116, 101, 115, 116, 105, 110, 103]).2 = some 2 ∧
    (libNavigate ((((LibTrie.new : LibTrie Nat).insert [116, 101, 115, 116] 1).1.insert
        [116, 101, 115, 116, 105, 110, 103] 2).1.delete
        [116, 101, 115, 116, 105, 110, 103]).1.root
      (buildPath [116, 101, 115, 116])).map LibNode.countChildren = some 1 ∧
    (libNavigate ((((LibTrie.new : LibTrie Nat).insert [116, 101, 115, 116] 1).1.insert
        [116, 101, 115, 116, 105, 110, 103] 2).1.delete
        [116, 101, 115, 116, 105, 110, 103]).1.root
      (buildPath [116, 101, 115, 116])).bind LibNode.value = some 1 := by
  exact ⟨by decide, by decide, by decide⟩

/-- C3: evaluation of the crate-root Trie of src/lib.rs at the failing
input.  After inserting key 0x61 and deleting it again, the stored length
counter is still 1 while the number of nodes with an occupied value slot is
0 (counted to depth 64, far beyond the structure's depth 2) — delete breaks
the length invariant because it removes the value without decrementing the
counter. -/
theorem claim_C3_lib_len_invariant_broken :
    (((LibTrie.new : LibTrie Nat).insert [97] 1).1.delete [97]).1.len = 1 ∧
    LibNode.countValues 64
      (((LibTrie.new : LibTrie Nat).insert [97] 1).1.delete [97]).1.root = 0 := by
  exact ⟨by decide, by decide⟩

/-! ### Lemmas about lexicographic order and the materialized iterator list -/

theorem listLt_append_cons (p : List Nat) (x : Nat) (r : List Nat) :
    listLt p (p ++ x :: r) = true := by
  induction p with
  | nil => rfl
  | cons a as ih => simp [listLt, ih]

theorem listLt_append_lt (p : List Nat) (i j : Nat) (r1 r2 : List Nat) (h : i < j) :
    listLt (p ++ i :: r1) (p ++ j :: r2) = true := by
  induction p with
  | nil => simp [listLt, h]
  | cons a as ih => simp [listLt, ih]

theorem range16_pairwise : (List.range 16).Pairwise (· < ·) := by decide

theorem pairwise_flatMap_of {B : Type} (R : B → B → Prop) (f : Nat → List B) :
    ∀ is : List Nat, is.Pairwise (· < ·) → (∀ i ∈ is, (f i).Pairwise R) →
      (∀ i ∈ is, ∀ j ∈ is, i < j → ∀ a ∈ f i, ∀ b ∈ f j, R a b) →
      (is.flatMap f).Pairwise R := by
  intro is
  induction is with
  | nil => intro _ _ _; simp
  | cons i is ih =>
    intro hsort hseg hcross
    rw [List.flatMap_cons, List.pairwise_append]
    rw [List.pairwise_cons] at hsort
    refine ⟨hseg i (by simp), ih hsort.2 (fun j hj => hseg j (by simp [hj]))
      (fun a ha b hb hab => hcross a (by simp [ha]) b (by simp [hb]) hab), ?_⟩
    intro a ha b hb
    rw [List.mem_flatMap] at hb
    obtain ⟨j, hj, hbj⟩ := hb
    exact hcross i (by simp) j (by simp [hj]) (hsort.1 j hj) a ha b hbj

theorem collectItems_extend {T : Type} (t : Trie T) :
    ∀ (fuel : Nat) (k : Nat) (path : List Nat) (item : List Nat × T),
      item ∈ t.collectItems fuel k path → ∃ s, item.1 = path ++ s := by
  intro fuel
  induction fuel with
  | zero => intro k path item h; simp [Trie.collectItems] at h
  | succ fuel ih =>
    intro k path item h
    simp only [Trie.collectItems] at h
    cases hk : alookup k t.arena with
    | none => rw [hk] at h; simp at h
    | some node =>
      rw [hk] at h
      rw [List.mem_append] at h
      cases h with
      | inl h =>
        cases hv : node.value with
        | none => rw [hv] at h; simp at h
        | some v =>
          rw [hv] at h
          simp at h
          exact ⟨[], by rw [h]; simp⟩
      | inr h =>
        rw [List.mem_flatMap] at h
        obtain ⟨i, _, hmem⟩ := h
        cases hc : node.childKey i with
        | none => rw [hc] at hmem; simp at hmem
        | some ck =>
          rw [hc] at hmem
          obtain ⟨s, hs⟩ := ih ck (path ++ [i]) item hmem
          exact ⟨i :: s, by rw [hs, List.append_assoc]; rfl⟩

theorem collectItems_sorted {T : Type} (t : Trie T) :
    ∀ (fuel : Nat) (k : Nat) (path : List Nat),
      (t.collectItems fuel k path).Pairwise (fun a b => listLt a.1 b.1 = true) := by
  intro fuel
  induction fuel with
  | zero => intro k path; simp [Trie.collectItems]
  | succ fuel ih =>
    intro k path
    simp only [Trie.collectItems]
    cases hk : alookup k t.arena with
    | none => simp
    | some node =>
      rw [List.pairwise_append]
      refine ⟨?_, ?_, ?_⟩
      · cases node.value <;> simp
      · refine pairwise_flatMap_of _ _ _ range16_pairwise ?_ ?_
        · intro i _
          cases node.childKey i with
          | none => simp
          | some ck => exact ih ck (path ++ [i])
        · intro i _ j _ hij a ha b hb
          cases hci : node.childKey i with
          | none => rw [hci] at ha; simp at ha
          | some cki =>
            cases hcj : node.childKey j with
            | none => rw [hcj] at hb; simp at hb
            | some ckj =>
              rw [hci] at ha
              rw [hcj] at hb
              obtain ⟨s1, hs1⟩ := collectItems_extend t fuel cki (path ++ [i]) a ha
              obtain ⟨s2, hs2⟩ := collectItems_extend t fuel ckj (path ++ [j]) b hb
              rw [hs1, hs2, List.append_assoc, List.append_assoc]
              exact listLt_append_lt path i j _ _ hij
      · intro a ha b hb
        cases hv : node.value with
        | none => rw [hv] at ha; simp at ha
        | some v =>
          rw [hv] at ha
          simp at ha
          rw [List.mem_flatMap] at hb
          obtain ⟨i, _, hmem⟩ := hb
          cases hci : node.childKey i with
          | none => rw [hci] at hmem; simp at hmem
          | some ck =>
            rw [hci] at hmem
            obtain ⟨s, hs⟩ := collectItems_extend t fuel ck (path ++ [i]) b hmem
            rw [ha, hs, List.append_assoc]
            exact listLt_append_cons path i s

theorem TrieIter.next_of_lt {T : Type} (it : TrieIter T) (h : it.backIndex < it.frontIndex) :
    it.next = (it, none) := by
  simp [TrieIter.next, h]

theorem TrieIter.nextBack_of_lt {T : Type} (it : TrieIter T)
    (h : it.backIndex < it.frontIndex) : it.nextBack = (it, none) := by
  simp [TrieIter.nextBack, h]

theorem TrieIter.next_of_empty {T : Type} (it : TrieIter T) (h : it.items = []) :
    it.next = (it, none) := by
  simp [TrieIter.next, h]

theorem TrieIter.nextBack_of_empty {T : Type} (it : TrieIter T) (h : it.items = []) :
    it.nextBack = (it, none) := by
  simp [TrieIter.nextBack, h]

theorem TrieIter.next_of_le {T : Type} (it : TrieIter T) (h1 : it.frontIndex ≤ it.backIndex)
    (h2 : it.items ≠ []) :
    it.next = ({ it with frontIndex := it.frontIndex + 1 }, it.items.get? it.frontIndex) := by
  simp [TrieIter.next, Nat.not_lt.mpr h1, h2]

theorem TrieIter.nextBack_of_le_zero {T : Type} (it : TrieIter T)
    (h1 : it.frontIndex ≤ it.backIndex) (h2 : it.items ≠ []) (h0 : it.backIndex = 0) :
    it.nextBack = ({ it with frontIndex := 1 }, it.items.get? it.backIndex) := by
  have hf : it.frontIndex = 0 := by omega
  simp [TrieIter.nextBack, h2, h0, hf]

theorem TrieIter.nextBack_of_le_pos {T : Type} (it : TrieIter T)
    (h1 : it.frontIndex ≤ it.backIndex) (h2 : it.items ≠ []) (h0 : it.backIndex ≠ 0) :
    it.nextBack =
      ({ it with backIndex := it.backIndex - 1 }, it.items.get? it.backIndex) := by
  simp [TrieIter.nextBack, Nat.not_lt.mpr h1, h2, h0]

theorem TrieIter.sizeHint_nonempty {T : Type} (it : TrieIter T)
    (h : it.items.isEmpty = false) :
    (it.sizeHint).1 =
      if it.backIndex < it.frontIndex then 0
      else it.backIndex - it.frontIndex + 1 := by
  by_cases h1 : it.backIndex < it.frontIndex <;> simp [TrieIter.sizeHint, h, h1]

theorem TrieIter.sizeHint_empty {T : Type} (it : TrieIter T)
    (h : it.items = []) : (it.sizeHint).1 = 0 := by
  simp [TrieIter.sizeHint, h]

theorem TrieIter.run_spec {T : Type} (ops : List Bool) :
    ∀ it : TrieIter T, it.frontIndex ≤ it.backIndex + 1 →
      (it.items ≠ [] → it.backIndex < it.items.length) →
      ((it.run ops).1.items = it.items ∧
        (it.run ops).1.frontIndex ≤ (it.run ops).1.backIndex + 1 ∧
        (it.items ≠ [] → (it.run ops).1.backIndex < it.items.length) ∧
        ((it.run ops).1.sizeHint).1 + ((it.run ops).2.filterMap id).length =
          (it.sizeHint).1) := by
  induction ops with
  | nil => intro it h1 h2; exact ⟨rfl, h1, h2, by simp [TrieIter.run]⟩
  | cons op ops ih =>
    intro it h1 h2
    by_cases hemp : it.items = []
    · have hstep : it.step op = (it, none) := by
        cases op <;>
          simp [TrieIter.step, TrieIter.next_of_empty it hemp,
            TrieIter.nextBack_of_empty it hemp]
      obtain ⟨ha, hb, hc, hd⟩ := ih it h1 h2
      rw [TrieIter.run, hstep]
      exact ⟨ha, hb, hc, by simpa using hd⟩
    · have hempb : it.items.isEmpty = false := by
        cases hit : it.items with
        | nil => exact absurd hit hemp
        | cons a l => rfl
      by_cases hcross : it.backIndex < it.frontIndex
      · have hstep : it.step op = (it, none) := by
          cases op <;>
            simp [TrieIter.step, TrieIter.next_of_lt it hcross,
              TrieIter.nextBack_of_lt it hcross]
        obtain ⟨ha, hb, hc, hd⟩ := ih it h1 h2
        rw [TrieIter.run, hstep]
        exact ⟨ha, hb, hc, by simpa using hd⟩
      · have hle : it.frontIndex ≤ it.backIndex := Nat.not_lt.mp hcross
        have hblen : it.backIndex < it.items.length := h2 hemp
        cases op with
        | true =>
          have hstep : it.step true =
              ({ it with frontIndex := it.frontIndex + 1 },
                it.items.get? it.frontIndex) := by
            simp [TrieIter.step, TrieIter.next_of_le it hle hemp]
          obtain ⟨x, hx⟩ := Option.isSome_iff_exists.mp
            (by rw [List.get?_eq_get (Nat.lt_of_le_of_lt hle hblen)]; rfl :
              (it.items.get? it.frontIndex).isSome)
          obtain ⟨ha, hb, hc, hd⟩ :=
            ih { it with frontIndex := it.frontIndex + 1 }
              (show it.frontIndex + 1 ≤ it.backIndex + 1 by omega) (fun _ => hblen)
          rw [TrieIter.run, hstep]
          refine ⟨ha, hb, hc, ?_⟩
          rw [hx]
          simp only [List.filterMap_cons, id, List.length_cons]
          have hR : (it.sizeHint).1 =
              (({ it with frontIndex := it.frontIndex + 1 } : TrieIter T).sizeHint).1 + 1 := by
            rw [TrieIter.sizeHint_nonempty it hempb,
              TrieIter.sizeHint_nonempty { it with frontIndex := it.frontIndex + 1 } hempb]
            simp only
            split_ifs <;> omega
          omega
        | false =>
          obtain ⟨x, hx⟩ := Option.isSome_iff_exists.mp
            (by rw [List.get?_eq_get hblen]; rfl : (it.items.get? it.backIndex).isSome)
          by_cases h0 : it.backIndex = 0
          · have hstep : it.step false =
                ({ it with frontIndex := 1 }, it.items.get? it.backIndex) := by
              simp [TrieIter.step, TrieIter.nextBack_of_le_zero it hle hemp h0]
            obtain ⟨ha, hb, hc, hd⟩ :=
              ih { it with frontIndex := 1 }
                (show 1 ≤ it.backIndex + 1 by omega) (fun _ => hblen)
            rw [TrieIter.run, hstep]
            refine ⟨ha, hb, hc, ?_⟩
            rw [hx]
            simp only [List.filterMap_cons, id, List.length_cons]
            have hR : (it.sizeHint).1 =
                (({ it with frontIndex := 1 } : TrieIter T).sizeHint).1 + 1 := by
              rw [TrieIter.sizeHint_nonempty it hempb,
                TrieIter.sizeHint_nonempty { it with frontIndex := 1 } hempb]
              simp only
              split_ifs <;> omega
            omega
          · have hstep : it.step false =
                ({ it with backIndex := it.backIndex - 1 },
                  it.items.get? it.backIndex) := by
              simp [TrieIter.step, TrieIter.nextBack_of_le_pos it hle hemp h0]
            obtain ⟨ha, hb, hc, hd⟩ :=
              ih { it with backIndex := it.backIndex - 1 }
                (show it.frontIndex ≤ it.backIndex - 1 + 1 by omega)
                (fun _ => show it.backIndex - 1 < it.items.length by omega)
            rw [TrieIter.run, hstep]
            refine ⟨ha, hb, hc, ?_⟩
            rw [hx]
            simp only [List.filterMap_cons, id, List.length_cons]
            have hR : (it.sizeHint).1 =
                (({ it with backIndex := it.backIndex - 1 } : TrieIter T).sizeHint).1 + 1 := by
              rw [TrieIter.sizeHint_nonempty it hempb,
                TrieIter.sizeHint_nonempty { it with backIndex := it.backIndex - 1 } hempb]
              simp only
              split_ifs <;> omega
            omega

theorem Trie.iter_frontIndex {T : Type} (t : Trie T) : t.iter.frontIndex = 0 := rfl

theorem Trie.iter_items {T : Type} (t : Trie T) : t.iter.items = t.iterItems := rfl

theorem Trie.iter_inv2 {T : Type} (t : Trie T) :
    t.iter.items ≠ [] → t.iter.backIndex < t.iter.items.length := by
  show t.iterItems ≠ [] →
    (if t.iterItems.isEmpty then 0 else t.iterItems.length - 1) < t.iterItems.length
  cases hi : t.iterItems with
  | nil => intro h; exact absurd rfl h
  | cons a l => intro _; simp

theorem Trie.iter_sizeHint {T : Type} (t : Trie T) :
    (t.iter.sizeHint).1 = t.iterItems.length := by
  by_cases h : t.iterItems = []
  · rw [TrieIter.sizeHint_empty t.iter (by exact h), h]
    rfl
  · have hb : t.iter.items.isEmpty = false := by
      show t.iterItems.isEmpty = false
      cases hi : t.iterItems with
      | nil => exact absurd hi h
      | cons a l => rfl
    rw [TrieIter.sizeHint_nonempty t.iter hb]
    show (if (if t.iterItems.isEmpty then 0 else t.iterItems.length - 1) < 0 then 0
      else (if t.iterItems.isEmpty then 0 else t.iterItems.length - 1) - 0 + 1) =
        t.iterItems.length
    cases hi : t.iterItems with
    | nil => exact absurd hi h
    | cons a l => simp

theorem TrieIter.forwardRun_succ {T : Type} (fuel : Nat) (it it2 : TrieIter T)
    (x : List Nat × T) (h : it.next = (it2, some x)) :
    TrieIter.forwardRun (fuel + 1) it = x :: TrieIter.forwardRun fuel it2 := by
  rw [TrieIter.forwardRun, h]

theorem TrieIter.backwardRun_succ {T : Type} (fuel : Nat) (it it2 : TrieIter T)
    (x : List Nat × T) (h : it.nextBack = (it2, some x)) :
    TrieIter.backwardRun (fuel + 1) it = x :: TrieIter.backwardRun fuel it2 := by
  rw [TrieIter.backwardRun, h]

theorem TrieIter.forwardRun_spec {T : Type} :
    ∀ (fuel : Nat) (it : TrieIter T), it.frontIndex ≤ it.backIndex + 1 →
      (it.items ≠ [] → it.backIndex < it.items.length) →
      (it.sizeHint).1 ≤ fuel →
      TrieIter.forwardRun fuel it =
        (it.items.drop it.frontIndex).take (it.sizeHint).1 := by
  intro fuel
  induction fuel with
  | zero =>
    intro it _ _ hf
    rw [Nat.le_zero.mp hf]
    rfl
  | succ fuel ih =>
    intro it h1 h2 hf
    by_cases hemp : it.items = []
    · rw [TrieIter.sizeHint_empty it hemp]
      rw [TrieIter.forwardRun, TrieIter.next_of_empty it hemp]
      simp
    · have hempb : it.items.isEmpty = false := by
        cases hit : it.items with
        | nil => exact absurd hit hemp
        | cons a l => rfl
      by_cases hcross : it.backIndex < it.frontIndex
      · rw [TrieIter.sizeHint_nonempty it hempb]
        rw [if_pos hcross]
        rw [TrieIter.forwardRun, TrieIter.next_of_lt it hcross]
        simp
      · have hle : it.frontIndex ≤ it.backIndex := Nat.not_lt.mp hcross
        have hblen : it.backIndex < it.items.length := h2 hemp
        have hflen : it.frontIndex < it.items.length := Nat.lt_of_le_of_lt hle hblen
        have hr : (it.sizeHint).1 = it.backIndex - it.frontIndex + 1 := by
          rw [TrieIter.sizeHint_nonempty it hempb, if_neg hcross]
        have hr' :
            (({ it with frontIndex := it.frontIndex + 1 } : TrieIter T).sizeHint).1 =
              it.backIndex - it.frontIndex := by
          rw [TrieIter.sizeHint_nonempty
            ({ it with frontIndex := it.frontIndex + 1 } : TrieIter T) hempb]
          simp only
          split_ifs <;> omega
        have hnext : it.next = ({ it with frontIndex := it.frontIndex + 1 },
            some (it.items.get ⟨it.frontIndex, hflen⟩)) := by
          rw [TrieIter.next_of_le it hle hemp, List.get?_eq_get hflen]
        rw [TrieIter.forwardRun_succ fuel it _ _ hnext]
        rw [ih { it with frontIndex := it.frontIndex + 1 }
          (show it.frontIndex + 1 ≤ it.backIndex + 1 by omega) (fun _ => hblen)
          (by rw [hr']; omega)]
        rw [hr, hr']
        rw [List.drop_eq_getElem_cons hflen, List.take_succ_cons]
        rfl

theorem TrieIter.backwardRun_spec {T : Type} :
    ∀ (fuel : Nat) (it : TrieIter T), it.frontIndex ≤ it.backIndex + 1 →
      (it.items ≠ [] → it.backIndex < it.items.length) →
      (it.sizeHint).1 ≤ fuel →
      TrieIter.backwardRun fuel it =
        ((it.items.drop it.frontIndex).take (it.sizeHint).1).reverse := by
  intro fuel
  induction fuel with
  | zero =>
    intro it _ _ hf
    rw [Nat.le_zero.mp hf]
    rfl
  | succ fuel ih =>
    intro it h1 h2 hf
    by_cases hemp : it.items = []
    · rw [TrieIter.sizeHint_empty it hemp]
      rw [TrieIter.backwardRun, TrieIter.nextBack_of_empty it hemp]
      simp
    · have hempb : it.items.isEmpty = false := by
        cases hit : it.items with
        | nil => exact absurd hit hemp
        | cons a l => rfl
      by_cases hcross : it.backIndex < it.frontIndex
      · rw [TrieIter.sizeHint_nonempty it hempb]
        rw [if_pos hcross]
        rw [TrieIter.backwardRun, TrieIter.nextBack_of_lt it hcross]
        simp
      · have hle : it.frontIndex ≤ it.backIndex := Nat.not_lt.mp hcross
        have hblen : it.backIndex < it.items.length := h2 hemp
        have hflen : it.frontIndex < it.items.length := Nat.lt_of_le_of_lt hle hblen
        have hr : (it.sizeHint).1 = it.backIndex - it.frontIndex + 1 := by
          rw [TrieIter.sizeHint_nonempty it hempb, if_neg hcross]
        by_cases h0 : it.backIndex = 0
        · have hf0 : it.frontIndex = 0 := by omega
          have hnext : it.nextBack = ({ it with frontIndex := 1 },
              some (it.items.get ⟨it.backIndex, hblen⟩)) := by
            rw [TrieIter.nextBack_of_le_zero it hle hemp h0, List.get?_eq_get hblen]
          rw [TrieIter.backwardRun_succ fuel it _ _ hnext]
          have hcross' :
              ({ it with frontIndex := 1 } : TrieIter T).backIndex <
                ({ it with frontIndex := 1 } : TrieIter T).frontIndex := by
            simp only
            omega
          have hr1 : (({ it with frontIndex := 1 } : TrieIter T).sizeHint).1 = 0 := by
            rw [TrieIter.sizeHint_nonempty ({ it with frontIndex := 1 } : TrieIter T) hempb,
              if_pos hcross']
          rw [ih { it with frontIndex := 1 }
            (show 1 ≤ it.backIndex + 1 by omega) (fun _ => hblen) (by rw [hr1]; omega)]
          rw [hr1, hr]
          have h1eq : it.backIndex - it.frontIndex + 1 = 1 := by omega
          rw [h1eq]
          have hx : it.items.get ⟨it.backIndex, hblen⟩ =
              it.items.get ⟨it.frontIndex, hflen⟩ := by
            congr 1
            simp only [Fin.mk.injEq]
            omega
          rw [hx]
          rw [List.drop_eq_getElem_cons hflen, List.take_succ_cons, List.take_zero]
          simp
        · have hnext : it.nextBack = ({ it with backIndex := it.backIndex - 1 },
              some (it.items.get ⟨it.backIndex, hblen⟩)) := by
            rw [TrieIter.nextBack_of_le_pos it hle hemp h0, List.get?_eq_get hblen]
          rw [TrieIter.backwardRun_succ fuel it _ _ hnext]
          have hr' :
              (({ it with backIndex := it.backIndex - 1 } : TrieIter T).sizeHint).1 =
                it.backIndex - it.frontIndex := by
            rw [TrieIter.sizeHint_nonempty
              ({ it with backIndex := it.backIndex - 1 } : TrieIter T) hempb]
            simp only
            split_ifs <;> omega
          rw [ih { it with backIndex := it.backIndex - 1 }
            (show it.frontIndex ≤ it.backIndex - 1 + 1 by omega)
            (fun _ => show it.backIndex - 1 < it.items.length by omega)
            (by rw [hr']; omega)]
          rw [hr, hr']
          have htake :
              (it.items.drop it.frontIndex).take (it.backIndex - it.frontIndex + 1) =
                (it.items.drop it.frontIndex).take (it.backIndex - it.frontIndex) ++
                  [it.items[it.backIndex]] := by
            rw [List.take_succ]
            have : (it.items.drop it.frontIndex)[it.backIndex - it.frontIndex]? =
                some it.items[it.backIndex] := by
              rw [List.getElem?_drop]
              rw [show it.frontIndex + (it.backIndex - it.frontIndex) = it.backIndex
                by omega]
              exact List.getElem?_eq_getElem hblen
            rw [this]
            rfl
          rw [htake]
          simp

/-- C8: for every trie, the iterator's materialized item list is strictly
increasing in lexicographic path order, the full forward iteration (repeated
next until absent) yields exactly that list, and its reverse equals the full
backward iteration (repeated next_back until absent), element for element. -/
theorem claim_C8_iterator_order {T : Type} (t : Trie T) :
    (t.iterItems).Pairwise (fun a b => listLt a.1 b.1 = true) ∧
    TrieIter.forwardRun (t.iterItems.length + 1) t.iter = t.iterItems ∧
    (TrieIter.forwardRun (t.iterItems.length + 1) t.iter).reverse =
      TrieIter.backwardRun (t.iterItems.length + 1) t.iter := by
  have hinv1 : t.iter.frontIndex ≤ t.iter.backIndex + 1 := Nat.zero_le _
  have hinv2 := Trie.iter_inv2 t
  have hsz := Trie.iter_sizeHint t
  have hfwd := TrieIter.forwardRun_spec (t.iterItems.length + 1) t.iter hinv1 hinv2
    (by rw [hsz]; omega)
  have hbwd := TrieIter.backwardRun_spec (t.iterItems.length + 1) t.iter hinv1 hinv2
    (by rw [hsz]; omega)
  have hslice : (t.iter.items.drop t.iter.frontIndex).take ((t.iter.sizeHint).1) =
      t.iterItems := by
    rw [hsz, Trie.iter_items, Trie.iter_frontIndex]
    simp [List.take_of_length_le]
  refine ⟨collectItems_sorted t _ t.root [], ?_, ?_⟩
  · rw [hfwd, hslice]
  · rw [hfwd, hbwd, hslice]

/-- C9: along any interleaved sequence of next and next_back calls on a
trie's iterator, size_hint always returns an exact pair (r, Some r) where r
plus the number of elements consumed so far is the total item count, and
once the back cursor has fallen below the front cursor both next and
next_back return none. -/
theorem claim_C9_size_hint {T : Type} (t : Trie T) (ops : List Bool) :
    ((t.iter.run ops).1.sizeHint =
      (((t.iter.run ops).1.sizeHint).1, some (((t.iter.run ops).1.sizeHint).1))) ∧
    (((t.iter.run ops).1.sizeHint).1 + ((t.iter.run ops).2.filterMap id).length =
      t.iterItems.length) ∧
    ((t.iter.run ops).1.backIndex < (t.iter.run ops).1.frontIndex →
      ((t.iter.run ops).1.next.2 = none ∧ (t.iter.run ops).1.nextBack.2 = none)) := by
  refine ⟨rfl, ?_, ?_⟩
  · have hspec := TrieIter.run_spec ops t.iter (Nat.zero_le _) (Trie.iter_inv2 t)
    rw [hspec.2.2.2, Trie.iter_sizeHint]
  · intro h
    rw [TrieIter.next_of_lt _ h, TrieIter.nextBack_of_lt _ h]
    exact ⟨rfl, rfl⟩

/-- C9 witness: on the one-element trie holding key 0x61, after a single
next call the cursors have crossed, and the crossing conjunct of the
theorem applies with its hypothesis discharged by evaluation. -/
theorem claim_C9_size_hint_witness :
    (((((Trie.new : Trie Nat).insert [97] 1).getD (Trie.new, none)).1.iter.run
        [true]).1.next.2 = none ∧
      ((((Trie.new : Trie Nat).insert [97] 1).getD (Trie.new, none)).1.iter.run
        [true]).1.nextBack.2 = none) :=
  (claim_C9_size_hint (((Trie.new : Trie Nat).insert [97] 1).getD
    (Trie.new, none)).1 [true]).2.2 (by decide)

/-! ### Association-list and node lemmas for the arena trie -/

theorem alookup_mem {A : Type} (k : Nat) (n : A) :
    ∀ l : List (Nat × A), alookup k l = some n → (k, n) ∈ l := by
  intro l
  induction l with
  | nil => intro h; simp [alookup] at h
  | cons e l ih =>
    obtain ⟨a, b⟩ := e
    intro h
    rw [alookup] at h
    by_cases he : a = k
    · rw [if_pos he] at h
      cases h
      subst he
      exact List.mem_cons_self _ _
    · rw [if_neg he] at h
      exact List.mem_cons_of_mem _ (ih h)

theorem alookup_isSome_iff_mem {A : Type} (k : Nat) :
    ∀ l : List (Nat × A), (alookup k l).isSome ↔ k ∈ l.map Prod.fst := by
  intro l
  induction l with
  | nil => simp [alookup]
  | cons e l ih =>
    by_cases he : e.1 = k
    · simp [alookup, he]
    · simp [alookup, he, ih, Ne.symm he]

theorem alookup_map_update {A : Type} (k j : Nat) (f : A → A) :
    ∀ l : List (Nat × A),
      alookup j (l.map (fun e => if e.1 = k then (e.1, f e.2) else e)) =
        if j = k then (alookup j l).map f else alookup j l := by
  intro l
  induction l with
  | nil => by_cases h : j = k <;> simp [alookup, h]
  | cons e l ih =>
    obtain ⟨a, b⟩ := e
    rw [List.map_cons]
    by_cases hak : a = k
    · subst hak
      rw [if_pos (show ((a, b) : Nat × A).1 = a from rfl)]
      simp only [alookup]
      by_cases haj : a = j
      · subst haj
        simp
      · simp only [if_neg haj, ih]
    · rw [if_neg (show ¬ ((a, b) : Nat × A).1 = k from hak)]
      simp only [alookup]
      by_cases haj : a = j
      · subst haj
        simp [hak]
      · simp only [if_neg haj, ih]

theorem alookup_filter_keys {A : Type} (ks : List Nat) (j : Nat) :
    ∀ l : List (Nat × A),
      alookup j (l.filter (fun e => !(ks.contains e.1))) =
        if j ∈ ks then none else alookup j l := by
  intro l
  induction l with
  | nil => by_cases h : j ∈ ks <;> simp [alookup, h]
  | cons e l ih =>
    obtain ⟨a, b⟩ := e
    by_cases hmem : a ∈ ks
    · have hc : (ks.contains (((a, b) : Nat × A).1)) = true :=
        List.elem_eq_true_of_mem hmem
      rw [List.filter_cons, hc]
      simp only [Bool.not_true, Bool.false_eq_true, if_false]
      rw [ih]
      by_cases hj : j ∈ ks
      · simp [hj]
      · have haj : ¬ a = j := fun h => hj (h ▸ hmem)
        simp [hj, alookup, haj]
    · have hc : (ks.contains (((a, b) : Nat × A).1)) = false := by
        cases hc2 : ks.contains a with
        | false => rfl
        | true => exact absurd (List.mem_of_elem_eq_true hc2) hmem
      rw [List.filter_cons, hc]
      simp only [Bool.not_false, if_true]
      simp only [alookup]
      by_cases haj : a = j
      · subst haj
        simp [hmem]
      · simp only [if_neg haj]
        rw [ih]

theorem alookup_split {A : Type} (k : Nat) (n : A) :
    ∀ l : List (Nat × A), (l.map Prod.fst).Nodup → alookup k l = some n →
      ∃ pre post, l = pre ++ (k, n) :: post ∧ k ∉ pre.map Prod.fst ∧
        k ∉ post.map Prod.fst := by
  intro l
  induction l with
  | nil => intro _ h; simp [alookup] at h
  | cons e l ih =>
    intro hnd h
    obtain ⟨a, b⟩ := e
    rw [List.map_cons, List.nodup_cons] at hnd
    rw [alookup] at h
    by_cases hak : a = k
    · rw [if_pos hak] at h
      cases h
      subst hak
      exact ⟨[], l, by simp, by simp, hnd.1⟩
    · rw [if_neg hak] at h
      obtain ⟨pre, post, heq, hpre, hpost⟩ := ih hnd.2 h
      exact ⟨(a, b) :: pre, post, by rw [heq]; simp, by simp [hpre, Ne.symm hak], hpost⟩

theorem Trie.updateNode_keys {T : Type} (t : Trie T) (k : Nat) (f : TrieNode T → TrieNode T) :
    (t.updateNode k f).keys = t.keys := by
  simp only [Trie.updateNode, Trie.keys, List.map_map]
  apply List.map_congr_left
  intro e _
  by_cases h : e.1 = k <;> simp [h]

theorem Trie.lookup_updateNode {T : Type} (t : Trie T) (k j : Nat)
    (f : TrieNode T → TrieNode T) :
    alookup j (t.updateNode k f).arena =
      if j = k then (alookup j t.arena).map f else alookup j t.arena :=
  alookup_map_update k j f t.arena

theorem TrieNode.childKey_mk_next {T : Type} (v : Option T) (n : TrieNode T) (i : Nat) :
    (TrieNode.mk v n.next).childKey i = n.childKey i := rfl

theorem TrieNode.childKey_childSet_self {T : Type} (n : TrieNode T) (i c : Nat)
    (h : i < 16) : (n.childSet i c).childKey i = some c := by
  simp [TrieNode.childKey, TrieNode.childSet, h]

theorem TrieNode.childKey_childSet_ne {T : Type} (n : TrieNode T) (i j c : Nat)
    (h : j ≠ i) : (n.childSet i c).childKey j = n.childKey j := by
  by_cases hj : j < 16 <;> simp [TrieNode.childKey, TrieNode.childSet, hj, h]

theorem TrieNode.childKey_childRemove_self {T : Type} (n : TrieNode T) (i : Nat) :
    (n.childRemove i).childKey i = none := by
  by_cases h : i < 16 <;> simp [TrieNode.childKey, TrieNode.childRemove, h]

theorem TrieNode.childKey_childRemove_ne {T : Type} (n : TrieNode T) (i j : Nat)
    (h : j ≠ i) : (n.childRemove i).childKey j = n.childKey j := by
  by_cases hj : j < 16 <;> simp [TrieNode.childKey, TrieNode.childRemove, hj, h]

theorem TrieNode.childSet_value {T : Type} (n : TrieNode T) (i c : Nat) :
    (n.childSet i c).value = n.value := rfl

theorem TrieNode.childRemove_value {T : Type} (n : TrieNode T) (i : Nat) :
    (n.childRemove i).value = n.value := rfl

theorem TrieNode.childKey_new {T : Type} (i : Nat) :
    (TrieNode.new : TrieNode T).childKey i = none := by
  by_cases h : i < 16 <;> simp [TrieNode.childKey, TrieNode.new, h]

theorem TrieNode.refsOf_new {T : Type} : (TrieNode.new : TrieNode T).refsOf = [] := by
  simp [TrieNode.refsOf, TrieNode.childKey_new]

theorem TrieNode.mem_refsOf {T : Type} (n : TrieNode T) (c : Nat) :
    c ∈ n.refsOf ↔ ∃ i, i < 16 ∧ n.childKey i = some c := by
  simp only [TrieNode.refsOf, List.mem_filterMap, List.mem_range]

theorem filterMap_point_update_perm {c s : Nat} {g g' : Nat → Option Nat} :
    ∀ is : List Nat, is.Nodup → s ∈ is → g s = none → g' s = some c →
      (∀ j ∈ is, j ≠ s → g' j = g j) →
      List.Perm (is.filterMap g') (c :: is.filterMap g) := by
  intro is
  induction is with
  | nil => intro _ h; simp at h
  | cons a is ih =>
    intro hnd hmem hg hg' hagree
    rw [List.nodup_cons] at hnd
    rw [List.mem_cons] at hmem
    by_cases has : a = s
    · subst has
      rw [List.filterMap_cons, List.filterMap_cons, hg, hg']
      have : is.filterMap g' = is.filterMap g := by
        apply List.filterMap_congr
        intro j hj
        exact hagree j (by simp [hj]) (fun he => hnd.1 (he ▸ hj))
      rw [this]
    · have hmem' : s ∈ is := by
        cases hmem with
        | inl h => exact absurd h.symm has
        | inr h => exact h
      have hrest := ih hnd.2 hmem' hg hg'
        (fun j hj hjs => hagree j (by simp [hj]) hjs)
      rw [List.filterMap_cons, List.filterMap_cons,
        hagree a (by simp) has]
      cases hga : g a with
      | none => simpa [hga] using hrest
      | some d =>
        refine List.Perm.trans (List.Perm.cons d hrest) ?_
        exact List.Perm.swap c d _

theorem TrieNode.refsOf_childSet_perm {T : Type} (n : TrieNode T) (i c : Nat)
    (hi : i < 16) (h : n.childKey i = none) :
    List.Perm ((n.childSet i c).refsOf) (c :: n.refsOf) := by
  apply filterMap_point_update_perm (List.range 16) (List.nodup_range 16)
    (List.mem_range.mpr hi) h (TrieNode.childKey_childSet_self n i c hi)
  intro j _ hji
  exact TrieNode.childKey_childSet_ne n i j c hji

theorem TrieNode.refsOf_childRemove_perm {T : Type} (n : TrieNode T) (i c : Nat)
    (hi : i < 16) (h : n.childKey i = some c) :
    List.Perm (n.refsOf) (c :: (n.childRemove i).refsOf) := by
  apply filterMap_point_update_perm (List.range 16) (List.nodup_range 16)
    (List.mem_range.mpr hi) (TrieNode.childKey_childRemove_self n i) h
  intro j _ hji
  exact (TrieNode.childKey_childRemove_ne n i j hji).symm

theorem TrieNode.lt_of_childKey_some {T : Type} (n : TrieNode T) (i c : Nat)
    (h : n.childKey i = some c) : i < 16 := by
  by_cases hi : i < 16
  · exact hi
  · simp [TrieNode.childKey, hi] at h

theorem Trie.navKey_nil {T : Type} (t : Trie T) (k : Nat) : t.navKey k [] = some k := rfl

theorem Trie.navKey_cons_some {T : Type} (t : Trie T) (k i : Nat) (rest : List Nat)
    (n : TrieNode T) (c : Nat) (hn : alookup k t.arena = some n)
    (hc : n.childKey i = some c) : t.navKey k (i :: rest) = t.navKey c rest := by
  simp only [Trie.navKey, hn, hc]

theorem Trie.navKey_cons_noNode {T : Type} (t : Trie T) (k i : Nat) (rest : List Nat)
    (hn : alookup k t.arena = none) : t.navKey k (i :: rest) = none := by
  simp only [Trie.navKey, hn]

theorem Trie.navKey_cons_noChild {T : Type} (t : Trie T) (k i : Nat) (rest : List Nat)
    (n : TrieNode T) (hn : alookup k t.arena = some n) (hc : n.childKey i = none) :
    t.navKey k (i :: rest) = none := by
  simp only [Trie.navKey, hn, hc]

theorem Trie.navKey_append_one {T : Type} (t : Trie T) (p : List Nat) :
    ∀ (k i : Nat),
      t.navKey k (p ++ [i]) =
        (t.navKey k p).bind
          (fun y => (alookup y t.arena).bind (fun n => n.childKey i)) := by
  induction p with
  | nil =>
    intro k i
    rw [List.nil_append, Trie.navKey_nil, Option.some_bind]
    cases hn : alookup k t.arena with
    | none => rw [Trie.navKey_cons_noNode t k i [] hn, Option.none_bind]
    | some n =>
      rw [Option.some_bind]
      cases hc : n.childKey i with
      | none => rw [Trie.navKey_cons_noChild t k i [] n hn hc]
      | some c => rw [Trie.navKey_cons_some t k i [] n c hn hc, Trie.navKey_nil]
  | cons j rest ih =>
    intro k i
    rw [List.cons_append]
    cases hn : alookup k t.arena with
    | none =>
      rw [Trie.navKey_cons_noNode t k j _ hn, Trie.navKey_cons_noNode t k j rest hn,
        Option.none_bind]
    | some n =>
      cases hc : n.childKey j with
      | none =>
        rw [Trie.navKey_cons_noChild t k j _ n hn hc,
          Trie.navKey_cons_noChild t k j rest n hn hc, Option.none_bind]
      | some c =>
        rw [Trie.navKey_cons_some t k j _ n c hn hc,
          Trie.navKey_cons_some t k j rest n c hn hc, ih]

theorem Trie.mem_allRefs_of_ref {T : Type} (t : Trie T) (j : Nat) (n : TrieNode T)
    (c : Nat) (hj : alookup j t.arena = some n) (hc : c ∈ n.refsOf) :
    c ∈ t.allRefs := by
  rw [Trie.allRefs, List.mem_flatMap]
  exact ⟨(j, n), alookup_mem j n t.arena hj, hc⟩

theorem Trie.wf_iff {T : Type} (t : Trie T) :
    t.wf = true ↔
      ((alookup t.root t.arena).isSome = true ∧ t.keys.Nodup ∧
        (∀ r ∈ t.allRefs, (alookup r t.arena).isSome = true ∧ r ≠ t.root) ∧
        t.allRefs.Nodup ∧ ∀ j ∈ t.keys, j < t.nextKey) := by
  simp only [Trie.wf, Bool.and_eq_true, List.all_eq_true, Bool.and_eq_true,
    decide_eq_true_eq]
  constructor
  · rintro ⟨⟨⟨⟨h1, h2⟩, h3⟩, h4⟩, h5⟩
    exact ⟨h1, h2, h3, h4, h5⟩
  · rintro ⟨h1, h2, h3, h4, h5⟩
    exact ⟨⟨⟨⟨h1, h2⟩, h3⟩, h4⟩, h5⟩

theorem filterMap_nodup_slot_inj {c : Nat} {g : Nat → Option Nat} :
    ∀ is : List Nat, (is.filterMap g).Nodup → ∀ i ∈ is, ∀ j ∈ is,
      g i = some c → g j = some c → i = j := by
  intro is
  induction is with
  | nil => intro _ i hi; simp at hi
  | cons a is ih =>
    intro hnd i hi j hj hgi hgj
    rw [List.filterMap_cons] at hnd
    rw [List.mem_cons] at hi hj
    cases hga : g a with
    | none =>
      rw [hga] at hnd
      cases hi with
      | inl h => rw [h, hga] at hgi; exact absurd hgi (by simp)
      | inr h =>
        cases hj with
        | inl h2 => rw [h2, hga] at hgj; exact absurd hgj (by simp)
        | inr h2 => exact ih hnd i h j h2 hgi hgj
    | some d =>
      rw [hga] at hnd
      rw [List.nodup_cons] at hnd
      cases hi with
      | inl h =>
        cases hj with
        | inl h2 => rw [h, h2]
        | inr h2 =>
          rw [h, hga] at hgi
          cases hgi
          exact absurd (List.mem_filterMap.mpr ⟨j, h2, hgj⟩) hnd.1
      | inr h =>
        cases hj with
        | inl h2 =>
          rw [h2, hga] at hgj
          cases hgj
          exact absurd (List.mem_filterMap.mpr ⟨i, h, hgi⟩) hnd.1
        | inr h2 => exact ih hnd.2 i h j h2 hgi hgj

theorem Trie.allRefs_decomp {T : Type} (t : Trie T) (pre post : List (Nat × TrieNode T))
    (e : Nat × TrieNode T) (heq : t.arena = pre ++ e :: post) :
    t.allRefs = pre.flatMap (fun x => x.2.refsOf) ++
      (e.2.refsOf ++ post.flatMap (fun x => x.2.refsOf)) := by
  rw [Trie.allRefs, heq, List.flatMap_append, List.flatMap_cons]

theorem Trie.ref_unique {T : Type} (t : Trie T) (hkn : t.keys.Nodup)
    (hrn : t.allRefs.Nodup) (a b i j c : Nat) (na nb : TrieNode T)
    (ha : alookup a t.arena = some na) (hb : alookup b t.arena = some nb)
    (hca : na.childKey i = some c) (hcb : nb.childKey j = some c) :
    a = b ∧ i = j := by
  obtain ⟨pre, post, heq, hpre, hpost⟩ := alookup_split a na t.arena hkn ha
  have hdecomp := Trie.allRefs_decomp t pre post (a, na) heq
  rw [hdecomp] at hrn
  rw [List.nodup_append] at hrn
  by_cases hab : a = b
  · subst hab
    rw [ha] at hb
    cases hb
    refine ⟨rfl, ?_⟩
    have hmid : (na.refsOf).Nodup := by
      have := hrn.2.1
      rw [List.nodup_append] at this
      exact this.1
    have hia := TrieNode.lt_of_childKey_some na i c hca
    have hja := TrieNode.lt_of_childKey_some na j c hcb
    exact filterMap_nodup_slot_inj (List.range 16) hmid i (List.mem_range.mpr hia)
      j (List.mem_range.mpr hja) hca hcb
  · exfalso
    have hcmem : c ∈ na.refsOf := (TrieNode.mem_refsOf na c).mpr
      ⟨i, TrieNode.lt_of_childKey_some na i c hca, hca⟩
    have hbmem : ((b, nb) : Nat × TrieNode T) ∈ t.arena := alookup_mem b nb t.arena hb
    rw [heq] at hbmem
    rw [List.mem_append, List.mem_cons] at hbmem
    have hcb_mem : c ∈ nb.refsOf := (TrieNode.mem_refsOf nb c).mpr
      ⟨j, TrieNode.lt_of_childKey_some nb j c hcb, hcb⟩
    cases hbmem with
    | inl hmem =>
      have : c ∈ pre.flatMap (fun x => x.2.refsOf) :=
        List.mem_flatMap.mpr ⟨(b, nb), hmem, hcb_mem⟩
      exact hrn.2.2 this (List.mem_append_left _ hcmem)
    | inr hmem =>
      cases hmem with
      | inl hethis => exact hab (congrArg Prod.fst hethis).symm
      | inr hmem =>
        have hcpost : c ∈ post.flatMap (fun x => x.2.refsOf) :=
          List.mem_flatMap.mpr ⟨(b, nb), hmem, hcb_mem⟩
        have := hrn.2.1
        rw [List.nodup_append] at this
        exact this.2.2 hcmem hcpost

theorem Trie.navKey_concat_ref {T : Type} (t : Trie T) (p : List Nat) (k i x : Nat)
    (h : t.navKey k (p ++ [i]) = some x) : x ∈ t.allRefs := by
  rw [Trie.navKey_append_one] at h
  cases hy : t.navKey k p with
  | none => rw [hy] at h; simp at h
  | some y =>
    rw [hy, Option.some_bind] at h
    cases hn : alookup y t.arena with
    | none => rw [hn] at h; simp at h
    | some n =>
      rw [hn, Option.some_bind] at h
      exact Trie.mem_allRefs_of_ref t y n x hn
        ((TrieNode.mem_refsOf n x).mpr ⟨i, TrieNode.lt_of_childKey_some n i x h, h⟩)

theorem Trie.navKey_inj {T : Type} (t : Trie T) (hwf : t.wf = true) :
    ∀ (p q : List Nat) (x : Nat), t.navKey t.root p = some x →
      t.navKey t.root q = some x → p = q := by
  have hprops := (Trie.wf_iff t).mp hwf
  intro p
  induction p using List.reverseRecOn with
  | nil =>
    intro q x hp hq
    rw [Trie.navKey_nil] at hp
    cases hp
    rcases List.eq_nil_or_concat q with hq0 | ⟨q0, j, hq0⟩
    · rw [hq0]
    · subst hq0
      rw [List.concat_eq_append] at hq
      have := Trie.navKey_concat_ref t q0 t.root j _ hq
      exact absurd rfl ((hprops.2.2.1 _ this).2)
  | append_singleton p0 i ih =>
    intro q x hp hq
    rcases List.eq_nil_or_concat q with hq0 | ⟨q0, j, hq0⟩
    · subst hq0
      rw [Trie.navKey_nil] at hq
      cases hq
      have := Trie.navKey_concat_ref t p0 t.root i _ hp
      exact absurd rfl ((hprops.2.2.1 _ this).2)
    · subst hq0
      rw [List.concat_eq_append] at hq
      rw [Trie.navKey_append_one] at hp hq
      cases hyp : t.navKey t.root p0 with
      | none => rw [hyp] at hp; simp at hp
      | some yp =>
        cases hyq : t.navKey t.root q0 with
        | none => rw [hyq] at hq; simp at hq
        | some yq =>
          rw [hyp, Option.some_bind] at hp
          rw [hyq, Option.some_bind] at hq
          cases hnp : alookup yp t.arena with
          | none => rw [hnp] at hp; simp at hp
          | some np =>
            cases hnq : alookup yq t.arena with
            | none => rw [hnq] at hq; simp at hq
            | some nq =>
              rw [hnp, Option.some_bind] at hp
              rw [hnq, Option.some_bind] at hq
              obtain ⟨hyy, hij⟩ := Trie.ref_unique t hprops.2.1 hprops.2.2.2.1
                yp yq i j x np nq hnp hnq hp hq
              subst hyy
              rw [hij]
              rw [ih q0 yp hyp (by rw [← hyq])]
              rw [List.concat_eq_append]

theorem alookup_cons {A : Type} (a j : Nat) (b : A) (l : List (Nat × A)) :
    alookup j ((a, b) :: l) = if a = j then some b else alookup j l := rfl

theorem TrieNode.refsOf_mk_next {T : Type} (v : Option T) (n : TrieNode T) :
    (TrieNode.mk v n.next).refsOf = n.refsOf := rfl

theorem Trie.updateNode_root {T : Type} (t : Trie T) (k : Nat)
    (f : TrieNode T → TrieNode T) : (t.updateNode k f).root = t.root := rfl

theorem Trie.updateNode_nextKey {T : Type} (t : Trie T) (k : Nat)
    (f : TrieNode T → TrieNode T) : (t.updateNode k f).nextKey = t.nextKey := rfl

theorem Trie.updateNode_len {T : Type} (t : Trie T) (k : Nat)
    (f : TrieNode T → TrieNode T) : (t.updateNode k f).len = t.len := rfl

theorem Trie.allRefs_updateNode {T : Type} (t : Trie T) (k : Nat)
    (f : TrieNode T → TrieNode T) (n : TrieNode T) (hnd : t.keys.Nodup)
    (h : alookup k t.arena = some n) :
    ∃ A B, t.allRefs = A ++ (n.refsOf ++ B) ∧
      (t.updateNode k f).allRefs = A ++ ((f n).refsOf ++ B) := by
  obtain ⟨pre, post, heq, hpre, hpost⟩ := alookup_split k n t.arena hnd h
  refine ⟨pre.flatMap (fun x => x.2.refsOf), post.flatMap (fun x => x.2.refsOf),
    Trie.allRefs_decomp t pre post (k, n) heq, ?_⟩
  have harena : (t.updateNode k f).arena = pre ++ (k, f n) :: post := by
    show t.arena.map (fun e => if e.1 = k then (e.1, f e.2) else e) =
      pre ++ (k, f n) :: post
    rw [heq, List.map_append, List.map_cons]
    have hhd : (if ((k, n) : Nat × TrieNode T).1 = k
        then (((k, n) : Nat × TrieNode T).1, f ((k, n) : Nat × TrieNode T).2)
        else (k, n)) = (k, f n) := by simp
    rw [hhd]
    have hp : pre.map (fun e => if e.1 = k then (e.1, f e.2) else e) = pre := by
      have h2 : pre.map (fun e => if e.1 = k then (e.1, f e.2) else e) = pre.map id :=
        List.map_congr_left (fun e he => by
          have : e.1 ≠ k := fun hek => hpre (hek ▸ List.mem_map_of_mem Prod.fst he)
          simp [this])
      rw [h2, List.map_id]
    have hq : post.map (fun e => if e.1 = k then (e.1, f e.2) else e) = post := by
      have h2 : post.map (fun e => if e.1 = k then (e.1, f e.2) else e) = post.map id :=
        List.map_congr_left (fun e he => by
          have : e.1 ≠ k := fun hek => hpost (hek ▸ List.mem_map_of_mem Prod.fst he)
          simp [this])
      rw [h2, List.map_id]
    rw [hp, hq]
  rw [Trie.allRefs, harena, List.flatMap_append, List.flatMap_cons]


theorem perm_of_eq {A : Type} {l1 l2 : List A} (h : l1 = l2) : List.Perm l1 l2 := by
  subst h
  exact List.Perm.refl l1

/-- The inductive contract of Trie.insertGo: on a well-formed-enough arena the
loop succeeds and produces a state related to the input as recorded by
InsertSpec (terminal node x, returned old value, fresh allocations, key and
reference bookkeeping). -/
theorem Trie.insertGo_spec {T : Type} (p : List Nat) :
    ∀ (t : Trie T) (k : Nat) (v : T),
      (∀ i ∈ p, i < 16) →
      (alookup k t.arena).isSome = true →
      (∀ r ∈ t.allRefs, (alookup r t.arena).isSome = true) →
      t.keys.Nodup →
      (∀ j ∈ t.keys, j < t.nextKey) →
      ∃ t' old x fresh, t.insertGo k p v = some (t', old) ∧
        InsertSpec T t k p v t' old x fresh := by
  induction p with
  | nil =>
    intro t k v _ hmem hclosed hnd hfresh
    obtain ⟨node, hnode⟩ := Option.isSome_iff_exists.mp hmem
    refine ⟨{ t.updateNode k (fun n => ⟨some v, n.next⟩) with
        len := t.len + (if node.value.isSome then 0 else 1) },
      node.value, k, [], ?_, ?_⟩
    · simp only [Trie.insertGo, hnode]
    · have hlookk :
          alookup k (t.updateNode k (fun n => (⟨some v, n.next⟩ : TrieNode T))).arena =
            some ⟨some v, node.next⟩ := by
        rw [Trie.lookup_updateNode, if_pos rfl, hnode]
        rfl
      refine
        { nav := Trie.navKey_nil _ k
          val_x := ⟨⟨some v, node.next⟩, hlookk, rfl⟩
          old_eq := ?_
          root_eq := rfl
          len_eq := rfl
          next_ge := Nat.le_refl _
          fresh_nodup := List.nodup_nil
          fresh_range := by intro f hf; simp at hf
          keys_perm := ?_
          old_nodes := ?_
          fresh_nodes := by intro j hj; simp at hj
          refs_new := ?_
          x_mem := Or.inl hmem }
      · show node.value = (alookup k t.arena).bind TrieNode.value
        rw [hnode]
        rfl
      · rw [List.nil_append]
        show List.Perm (t.updateNode k (fun n => (⟨some v, n.next⟩ : TrieNode T))).keys t.keys
        exact perm_of_eq (Trie.updateNode_keys t k _)
      · intro j n hj
        by_cases hjk : j = k
        · subst hjk
          rw [hnode] at hj
          cases hj
          refine ⟨⟨some v, node.next⟩, hlookk, by rw [if_pos rfl], ?_, ?_⟩
          · intro i2 hi2
            exact Or.inl hi2
          · intro i2 c hc
            exact hc
        · refine ⟨n, ?_, by rw [if_neg hjk], fun i2 hi2 => Or.inl hi2, fun i2 c hc => hc⟩
          show alookup j (t.updateNode k (fun m => (⟨some v, m.next⟩ : TrieNode T))).arena
            = some n
          rw [Trie.lookup_updateNode, if_neg hjk, hj]
      · refine ⟨[], ?_, List.nodup_nil, by simp⟩
        obtain ⟨A, B, h1, h2⟩ := Trie.allRefs_updateNode t k
          (fun n => (⟨some v, n.next⟩ : TrieNode T)) node hnd hnode
        simp only [TrieNode.refsOf_mk_next] at h2
        rw [List.nil_append]
        exact perm_of_eq (h2.trans h1.symm)
  | cons i rest ih =>
    intro t k v hbound hmem hclosed hnd hfresh
    have hi16 : i < 16 := hbound i (List.mem_cons_self i rest)
    have hbrest : ∀ j ∈ rest, j < 16 := fun j hj => hbound j (List.mem_cons_of_mem i hj)
    obtain ⟨node, hnode⟩ := Option.isSome_iff_exists.mp hmem
    cases hchild : node.childKey i with
    | some ck =>
      have hckmem : (alookup ck t.arena).isSome = true :=
        hclosed ck (Trie.mem_allRefs_of_ref t k node ck hnode
          ((TrieNode.mem_refsOf node ck).mpr ⟨i, hi16, hchild⟩))
      obtain ⟨t', old, x, fresh, hrun, hspec⟩ := ih t ck v hbrest hckmem hclosed hnd hfresh
      obtain ⟨nk', hnk', hvk', hnonek', hsomek'⟩ := hspec.old_nodes k node hnode
      refine ⟨t', old, x, fresh, ?_, ?_⟩
      · simp only [Trie.insertGo, hnode, hchild]
        exact hrun
      · refine
          { nav := ?_
            val_x := hspec.val_x
            old_eq := ?_
            root_eq := hspec.root_eq
            len_eq := hspec.len_eq
            next_ge := hspec.next_ge
            fresh_nodup := hspec.fresh_nodup
            fresh_range := hspec.fresh_range
            keys_perm := hspec.keys_perm
            old_nodes := hspec.old_nodes
            fresh_nodes := hspec.fresh_nodes
            refs_new := hspec.refs_new
            x_mem := hspec.x_mem }
        · rw [Trie.navKey_cons_some t' k i rest nk' ck hnk' (hsomek' i ck hchild)]
          exact hspec.nav
        · rw [Trie.navKey_cons_some t k i rest node ck hnode hchild]
          exact hspec.old_eq
    | none =>
      have hkkeys : k ∈ t.keys := (alookup_isSome_iff_mem k t.arena).mp hmem
      have hklt : k < t.nextKey := hfresh k hkkeys
      have hnkkeys : t.nextKey ∉ t.keys := fun h => Nat.lt_irrefl _ (hfresh _ h)
      have hnkk : ¬ t.nextKey = k := by
        intro h
        rw [h] at hklt
        exact Nat.lt_irrefl _ hklt
      have ht1look : ∀ j, alookup j ((t.nextKey, TrieNode.new) :: t.arena) =
          if t.nextKey = j then some TrieNode.new else alookup j t.arena :=
        fun j => alookup_cons _ j _ _
      have ht2look : ∀ j, alookup j (t.insertGraft k i).arena =
          if j = k
            then (alookup j ((t.nextKey, TrieNode.new) :: t.arena)).map
              (fun n => n.childSet i t.nextKey)
            else alookup j ((t.nextKey, TrieNode.new) :: t.arena) := fun j => by
        simp only [Trie.insertGraft]
        exact Trie.lookup_updateNode _ k j _
      have ht2keys : (t.insertGraft k i).keys = t.nextKey :: t.keys := by
        simp only [Trie.insertGraft]
        rw [Trie.updateNode_keys]
        rfl
      have ht2next : (t.insertGraft k i).nextKey = t.nextKey + 1 := rfl
      have hmem2 : (alookup t.nextKey (t.insertGraft k i).arena).isSome = true := by
        rw [ht2look, if_neg hnkk, ht1look, if_pos rfl]
        rfl
      have hlook1 : alookup k ((t.nextKey, TrieNode.new) :: t.arena) = some node := by
        rw [ht1look, if_neg hnkk, hnode]
      have hnd1 : (({ t with arena := (t.nextKey, TrieNode.new) :: t.arena, nextKey := t.nextKey + 1 } : Trie T).keys).Nodup := by
        show (t.nextKey :: t.keys).Nodup
        exact List.nodup_cons.mpr ⟨hnkkeys, hnd⟩
      have ht2refs : List.Perm (t.insertGraft k i).allRefs (t.nextKey :: t.allRefs) := by
        obtain ⟨A, B, h1, h2⟩ := Trie.allRefs_updateNode
          ({ t with arena := (t.nextKey, TrieNode.new) :: t.arena, nextKey := t.nextKey + 1 } : Trie T)
          k (fun n => n.childSet i t.nextKey) node hnd1 hlook1
        have h1' : ({ t with arena := (t.nextKey, TrieNode.new) :: t.arena, nextKey := t.nextKey + 1 } : Trie T).allRefs = t.allRefs := by
          show ((t.nextKey, TrieNode.new) :: t.arena).flatMap (fun e => e.2.refsOf) = t.allRefs
          simp only [List.flatMap_cons, TrieNode.refsOf_new, List.nil_append]
          rfl
        have hperm := TrieNode.refsOf_childSet_perm node i t.nextKey hi16 hchild
        have hmid : List.Perm (A ++ ((node.childSet i t.nextKey).refsOf ++ B))
            (t.nextKey :: (A ++ (node.refsOf ++ B))) :=
          (List.Perm.append_left A (List.Perm.append_right B hperm)).trans
            List.perm_middle
        have heq : A ++ (node.refsOf ++ B) = t.allRefs := by
          rw [← h1, h1']
        have h2' : (t.insertGraft k i).allRefs =
            A ++ ((node.childSet i t.nextKey).refsOf ++ B) := h2
        rw [h2', ← heq]
        exact hmid
      have hclosed2 : ∀ r ∈ (t.insertGraft k i).allRefs,
          (alookup r (t.insertGraft k i).arena).isSome = true := by
        intro r hr
        have hr' : r ∈ t.nextKey :: t.allRefs := ht2refs.subset hr
        rw [ht2look]
        rw [List.mem_cons] at hr'
        cases hr' with
        | inl h =>
          subst h
          rw [if_neg hnkk, ht1look, if_pos rfl]
          rfl
        | inr h =>
          have hsome := hclosed r h
          have hrkeys : r ∈ t.keys := (alookup_isSome_iff_mem r t.arena).mp hsome
          have hrnk : ¬ t.nextKey = r := fun hh => hnkkeys (by rw [hh]; exact hrkeys)
          obtain ⟨w, hw⟩ := Option.isSome_iff_exists.mp hsome
          by_cases hrk : r = k
          · rw [if_pos hrk, ht1look, if_neg hrnk, hw]
            rfl
          · rw [if_neg hrk, ht1look, if_neg hrnk, hw]
            rfl
      have hnd2 : (t.insertGraft k i).keys.Nodup := by
        rw [ht2keys]
        exact List.nodup_cons.mpr ⟨hnkkeys, hnd⟩
      have hfresh2 : ∀ j ∈ (t.insertGraft k i).keys, j < (t.insertGraft k i).nextKey := by
        intro j hj
        rw [ht2keys] at hj
        rw [ht2next]
        rw [List.mem_cons] at hj
        cases hj with
        | inl h => omega
        | inr h => have := hfresh j h; omega
      obtain ⟨t', old, x, fresh', hrun, hspec⟩ := ih (t.insertGraft k i) t.nextKey v
        hbrest hmem2 hclosed2 hnd2 hfresh2
      refine ⟨t', old, x, t.nextKey :: fresh', ?_, ?_⟩
      · simp only [Trie.insertGo, hnode, hchild]
        exact hrun
      · have hlookk2 : alookup k (t.insertGraft k i).arena =
            some (node.childSet i t.nextKey) := by
          rw [ht2look, if_pos rfl, ht1look, if_neg hnkk, hnode]
          rfl
        obtain ⟨nk', hnk', hvk', hnonek', hsomek'⟩ :=
          hspec.old_nodes k (node.childSet i t.nextKey) hlookk2
        refine
          { nav := ?_
            val_x := hspec.val_x
            old_eq := ?_
            root_eq := hspec.root_eq
            len_eq := hspec.len_eq
            next_ge := ?_
            fresh_nodup := ?_
            fresh_range := ?_
            keys_perm := ?_
            old_nodes := ?_
            fresh_nodes := ?_
            refs_new := ?_
            x_mem := ?_ }
        · rw [Trie.navKey_cons_some t' k i rest nk' t.nextKey hnk'
            (hsomek' i t.nextKey (TrieNode.childKey_childSet_self node i t.nextKey hi16))]
          exact hspec.nav
        · rw [Trie.navKey_cons_noChild t k i rest node hnode hchild]
          show old = none
          rw [hspec.old_eq]
          cases rest with
          | nil =>
            show (alookup t.nextKey (t.insertGraft k i).arena).bind TrieNode.value = none
            rw [ht2look, if_neg hnkk, ht1look, if_pos rfl]
            rfl
          | cons r rs =>
            have hlk : alookup t.nextKey (t.insertGraft k i).arena = some TrieNode.new := by
              rw [ht2look, if_neg hnkk, ht1look, if_pos rfl]
            rw [Trie.navKey_cons_noChild (t.insertGraft k i) t.nextKey r rs TrieNode.new hlk
              (TrieNode.childKey_new r)]
            rfl
        · have := hspec.next_ge
          rw [ht2next] at this
          omega
        · rw [List.nodup_cons]
          refine ⟨fun h => ?_, hspec.fresh_nodup⟩
          have := (hspec.fresh_range _ h).1
          rw [ht2next] at this
          omega
        · intro f hf
          rw [List.mem_cons] at hf
          cases hf with
          | inl h =>
            subst h
            have := hspec.next_ge
            rw [ht2next] at this
            exact ⟨Nat.le_refl _, by omega⟩
          | inr h =>
            have := hspec.fresh_range f h
            rw [ht2next] at this
            exact ⟨by omega, this.2⟩
        · have h1 := hspec.keys_perm
          rw [ht2keys] at h1
          exact h1.trans List.perm_middle
        · intro j n hj
          have hjsome : (alookup j t.arena).isSome = true := by rw [hj]; rfl
          have hjkeys : j ∈ t.keys := (alookup_isSome_iff_mem j t.arena).mp hjsome
          have hjnk : ¬ t.nextKey = j := fun hh => hnkkeys (by rw [hh]; exact hjkeys)
          by_cases hjk : j = k
          · subst hjk
            rw [hnode] at hj
            cases hj
            refine ⟨nk', hnk', ?_, ?_, ?_⟩
            · rw [hvk', TrieNode.childSet_value]
            · intro i2 hi2
              by_cases hii : i2 = i
              · refine Or.inr ⟨t.nextKey, List.mem_cons_self _ _, ?_⟩
                rw [hii]
                exact hsomek' i t.nextKey
                  (TrieNode.childKey_childSet_self node i t.nextKey hi16)
              · cases hnonek' i2 (by
                  rw [TrieNode.childKey_childSet_ne node i i2 t.nextKey hii]
                  exact hi2) with
                | inl h3 => exact Or.inl h3
                | inr h3 =>
                  obtain ⟨f, hf, hf2⟩ := h3
                  exact Or.inr ⟨f, List.mem_cons_of_mem _ hf, hf2⟩
            · intro i2 c hc
              have hii : ¬ i2 = i := by
                intro h
                rw [h, hchild] at hc
                exact absurd hc (by simp)
              refine hsomek' i2 c ?_
              rw [TrieNode.childKey_childSet_ne node i i2 t.nextKey hii]
              exact hc
          · have hj2 : alookup j (t.insertGraft k i).arena = some n := by
              rw [ht2look, if_neg hjk, ht1look, if_neg hjnk, hj]
            obtain ⟨n', hn', hv', hnone', hsome'⟩ := hspec.old_nodes j n hj2
            refine ⟨n', hn', hv', ?_, hsome'⟩
            intro i2 hi2
            cases hnone' i2 hi2 with
            | inl h3 => exact Or.inl h3
            | inr h3 =>
              obtain ⟨f, hf, hf2⟩ := h3
              exact Or.inr ⟨f, List.mem_cons_of_mem _ hf, hf2⟩
        · intro j hj
          rw [List.mem_cons] at hj
          cases hj with
          | inl h =>
            have hlk2 : alookup t.nextKey (t.insertGraft k i).arena =
                some TrieNode.new := by
              rw [ht2look, if_neg hnkk, ht1look, if_pos rfl]
            obtain ⟨n', hn', hv', hnone', hsome'⟩ :=
              hspec.old_nodes t.nextKey TrieNode.new hlk2
            refine ⟨n', by rw [h]; exact hn', ?_, ?_⟩
            · rw [h, hv']
              rfl
            · intro i2 c hc
              cases hnone' i2 (TrieNode.childKey_new i2) with
              | inl h3 =>
                rw [h3] at hc
                exact absurd hc (by simp)
              | inr h3 =>
                obtain ⟨f, hf, hf2⟩ := h3
                rw [hf2] at hc
                cases hc
                exact List.mem_cons_of_mem _ hf
          | inr h =>
            obtain ⟨n', hn', hv', hsub⟩ := hspec.fresh_nodes j h
            exact ⟨n', hn', hv', fun i2 c hc => List.mem_cons_of_mem _ (hsub i2 c hc)⟩
        · obtain ⟨newRefs', hperm', hnodup', hsub'⟩ := hspec.refs_new
          refine ⟨t.nextKey :: newRefs', ?_, ?_, ?_⟩
          · exact hperm'.trans ((List.Perm.append_left newRefs' ht2refs).trans
              List.perm_middle)
          · rw [List.nodup_cons]
            refine ⟨fun h => ?_, hnodup'⟩
            have := (hspec.fresh_range _ (hsub' _ h)).1
            rw [ht2next] at this
            omega
          · intro r hr
            rw [List.mem_cons] at hr
            cases hr with
            | inl h =>
              rw [h]
              exact List.mem_cons_self _ _
            | inr h => exact List.mem_cons_of_mem _ (hsub' r h)
        · cases hspec.x_mem with
          | inl h =>
            rw [ht2look] at h
            by_cases hxk : x = k
            · subst hxk
              exact Or.inl hmem
            · rw [if_neg hxk, ht1look] at h
              by_cases hxn : t.nextKey = x
              · refine Or.inr ?_
                rw [← hxn]
                exact List.mem_cons_self _ _
              · rw [if_neg hxn] at h
                exact Or.inl h
          | inr h => exact Or.inr (List.mem_cons_of_mem _ h)


theorem Trie.getPath_eq_bind {T : Type} (t : Trie T) (p : List Nat) :
    t.getPath p = (t.navKey t.root p).bind
      (fun y => (alookup y t.arena).bind TrieNode.value) := by
  cases h : t.navKey t.root p with
  | none =>
    simp only [Trie.getPath, h]
    rfl
  | some y =>
    cases h2 : alookup y t.arena with
    | none =>
      simp only [Trie.getPath, h, Option.some_bind, h2]
      rfl
    | some n =>
      simp only [Trie.getPath, h, Option.some_bind, h2]

theorem Trie.insertSpec_wf {T : Type} {t : Trie T} {p : List Nat} {v : T}
    {t' : Trie T} {old : Option T} {x : Nat} {fresh : List Nat}
    (hwf : t.wf = true) (hs : InsertSpec T t t.root p v t' old x fresh) :
    t'.wf = true := by
  obtain ⟨hroot, hnd, hclosed, hrefnd, hkey⟩ := (Trie.wf_iff t).mp hwf
  rw [Trie.wf_iff]
  obtain ⟨newRefs, hperm, hnodupN, hsubN⟩ := hs.refs_new
  have hrootlt : t.root < t.nextKey := hkey _ ((alookup_isSome_iff_mem _ _).mp hroot)
  refine ⟨?_, ?_, ?_, ?_, ?_⟩
  · obtain ⟨nr, hnr⟩ := Option.isSome_iff_exists.mp hroot
    obtain ⟨nr', hnr', _, _, _⟩ := hs.old_nodes t.root nr hnr
    rw [hs.root_eq, hnr']
    rfl
  · refine (hs.keys_perm.symm).nodup ?_
    rw [List.nodup_append]
    refine ⟨hs.fresh_nodup, hnd, ?_⟩
    intro a ha hb
    have h1 := (hs.fresh_range a ha).1
    have h2 := hkey a hb
    omega
  · intro r hr
    have hr' : r ∈ newRefs ++ t.allRefs := hperm.subset hr
    rw [List.mem_append] at hr'
    constructor
    · cases hr' with
      | inl h =>
        obtain ⟨n', hn', _, _⟩ := hs.fresh_nodes r (hsubN r h)
        rw [hn']
        rfl
      | inr h =>
        obtain ⟨n, hn⟩ := Option.isSome_iff_exists.mp (hclosed r h).1
        obtain ⟨n', hn', _, _, _⟩ := hs.old_nodes r n hn
        rw [hn']
        rfl
    · cases hr' with
      | inl h =>
        have h1 := (hs.fresh_range r (hsubN r h)).1
        rw [hs.root_eq]
        omega
      | inr h =>
        rw [hs.root_eq]
        exact (hclosed r h).2
  · refine (hperm.symm).nodup ?_
    rw [List.nodup_append]
    refine ⟨hnodupN, hrefnd, ?_⟩
    intro a ha hb
    have h1 := (hs.fresh_range a (hsubN a ha)).1
    have h2 := hkey a ((alookup_isSome_iff_mem a t.arena).mp (hclosed a hb).1)
    omega
  · intro j hj
    have hj' : j ∈ fresh ++ t.keys := hs.keys_perm.subset hj
    rw [List.mem_append] at hj'
    cases hj' with
    | inl h => exact (hs.fresh_range j h).2
    | inr h => exact lt_of_lt_of_le (hkey j h) hs.next_ge

theorem Trie.insertPath_full {T : Type} (t : Trie T) (p : List Nat) (v : T)
    (hwf : t.wf = true) (hp : ∀ i ∈ p, i < 16) :
    ∃ t' old x fresh, t.insertPath p v = some (t', old) ∧
      InsertSpec T t t.root p v t' old x fresh ∧ t'.wf = true := by
  obtain ⟨hroot, hnd, hclosed, hrefnd, hkey⟩ := (Trie.wf_iff t).mp hwf
  obtain ⟨t', old, x, fresh, hrun, hs⟩ := Trie.insertGo_spec p t t.root v hp hroot
    (fun r hr => (hclosed r hr).1) hnd hkey
  exact ⟨t', old, x, fresh, hrun, hs, Trie.insertSpec_wf hwf hs⟩

theorem Trie.navKey_mono {T : Type} (t t' : Trie T)
    (hpres : ∀ j n, alookup j t.arena = some n →
      ∃ n', alookup j t'.arena = some n' ∧
        ∀ i c, n.childKey i = some c → n'.childKey i = some c) :
    ∀ (q : List Nat) (k y : Nat), t.navKey k q = some y → t'.navKey k q = some y := by
  intro q
  induction q with
  | nil =>
    intro k y h
    rw [Trie.navKey_nil] at h ⊢
    exact h
  | cons i rest ih =>
    intro k y h
    cases hn : alookup k t.arena with
    | none =>
      rw [Trie.navKey_cons_noNode t k i rest hn] at h
      exact absurd h (by simp)
    | some n =>
      cases hc : n.childKey i with
      | none =>
        rw [Trie.navKey_cons_noChild t k i rest n hn hc] at h
        exact absurd h (by simp)
      | some c =>
        rw [Trie.navKey_cons_some t k i rest n c hn hc] at h
        obtain ⟨n', hn', hsome'⟩ := hpres k n hn
        rw [Trie.navKey_cons_some t' k i rest n' c hn' (hsome' i c hc)]
        exact ih c y h

theorem Trie.navKey_fresh {T : Type} {t' : Trie T} {x : Nat} {v : T} {fresh : List Nat}
    (hfn : ∀ j ∈ fresh, ∃ n', alookup j t'.arena = some n' ∧
      n'.value = (if j = x then some v else none) ∧
      (∀ i c, n'.childKey i = some c → c ∈ fresh)) :
    ∀ (q : List Nat) (w : Nat), w ∈ fresh →
      t'.navKey w q = none ∨ ∃ w2 ∈ fresh, t'.navKey w q = some w2 := by
  intro q
  induction q with
  | nil =>
    intro w hw
    exact Or.inr ⟨w, hw, Trie.navKey_nil t' w⟩
  | cons i rest ih =>
    intro w hw
    obtain ⟨n', hn', _, hsub⟩ := hfn w hw
    cases hc : n'.childKey i with
    | none => exact Or.inl (Trie.navKey_cons_noChild t' w i rest n' hn' hc)
    | some c =>
      rw [Trie.navKey_cons_some t' w i rest n' c hn' hc]
      exact ih c (hsub i c hc)

theorem Trie.navKey_none_decomp {T : Type} (t : Trie T) :
    ∀ (q : List Nat) (k : Nat), (alookup k t.arena).isSome = true →
      (∀ r ∈ t.allRefs, (alookup r t.arena).isSome = true) →
      t.navKey k q = none →
      ∃ q1 i q2 z n, q = q1 ++ i :: q2 ∧ t.navKey k q1 = some z ∧
        alookup z t.arena = some n ∧ n.childKey i = none := by
  intro q
  induction q with
  | nil =>
    intro k _ _ h
    rw [Trie.navKey_nil] at h
    exact absurd h (by simp)
  | cons i rest ih =>
    intro k hk hclosed h
    obtain ⟨n, hn⟩ := Option.isSome_iff_exists.mp hk
    cases hc : n.childKey i with
    | none =>
      exact ⟨[], i, rest, k, n, rfl, Trie.navKey_nil t k, hn, hc⟩
    | some c =>
      rw [Trie.navKey_cons_some t k i rest n c hn hc] at h
      have hi16 : i < 16 := TrieNode.lt_of_childKey_some n i c hc
      have hcmem := hclosed c (Trie.mem_allRefs_of_ref t k n c hn
        ((TrieNode.mem_refsOf n c).mpr ⟨i, hi16, hc⟩))
      obtain ⟨q1, i1, q2, z, m, heq, hnav, hm, hmc⟩ := ih c hcmem hclosed h
      refine ⟨i :: q1, i1, q2, z, m, ?_, ?_, hm, hmc⟩
      · rw [heq]
        rfl
      · rw [Trie.navKey_cons_some t k i q1 n c hn hc]
        exact hnav

theorem Trie.navKey_append {T : Type} (t : Trie T) (a : List Nat) :
    ∀ (b : List Nat) (k : Nat),
      t.navKey k (a ++ b) = (t.navKey k a).bind (fun z => t.navKey z b) := by
  induction a with
  | nil =>
    intro b k
    rw [List.nil_append, Trie.navKey_nil, Option.some_bind]
  | cons i rest ih =>
    intro b k
    cases hn : alookup k t.arena with
    | none =>
      rw [List.cons_append, Trie.navKey_cons_noNode t k i (rest ++ b) hn,
        Trie.navKey_cons_noNode t k i rest hn]
      rfl
    | some n =>
      cases hc : n.childKey i with
      | none =>
        rw [List.cons_append, Trie.navKey_cons_noChild t k i (rest ++ b) n hn hc,
          Trie.navKey_cons_noChild t k i rest n hn hc]
        rfl
      | some c =>
        rw [List.cons_append, Trie.navKey_cons_some t k i (rest ++ b) n c hn hc,
          Trie.navKey_cons_some t k i rest n c hn hc]
        exact ih b c

theorem Trie.getPath_frame {T : Type} {t t' : Trie T} {p : List Nat} {v : T}
    {old : Option T} {x : Nat} {fresh : List Nat}
    (hwf : t.wf = true) (hs : InsertSpec T t t.root p v t' old x fresh)
    (hwf' : t'.wf = true) (q : List Nat) (hq : q ≠ p) :
    t'.getPath q = t.getPath q := by
  obtain ⟨hroot, hnd, hclosed, hrefnd, hkey⟩ := (Trie.wf_iff t).mp hwf
  have hpres : ∀ j n, alookup j t.arena = some n →
      ∃ n', alookup j t'.arena = some n' ∧
        ∀ i c, n.childKey i = some c → n'.childKey i = some c := by
    intro j n hj
    obtain ⟨n', hn', _, _, hsome'⟩ := hs.old_nodes j n hj
    exact ⟨n', hn', hsome'⟩
  cases hnavt : t.navKey t.root q with
  | some y =>
    have hnavt' : t'.navKey t.root q = some y :=
      Trie.navKey_mono t t' hpres q t.root y hnavt
    have hyx : y ≠ x := by
      intro h
      apply hq
      have h1 : t'.navKey t'.root q = some x := by
        rw [hs.root_eq, hnavt', h]
      have h2 : t'.navKey t'.root p = some x := by
        rw [hs.root_eq]
        exact hs.nav
      exact Trie.navKey_inj t' hwf' q p x h1 h2
    have hysome : (alookup y t.arena).isSome = true := by
      rcases List.eq_nil_or_concat q with hq0 | ⟨q0, iq, hq0⟩
      · rw [hq0, Trie.navKey_nil] at hnavt
        cases hnavt
        exact hroot
      · rw [hq0, List.concat_eq_append] at hnavt
        exact (hclosed y (Trie.navKey_concat_ref t q0 t.root iq y hnavt)).1
    obtain ⟨ny, hny⟩ := Option.isSome_iff_exists.mp hysome
    obtain ⟨ny', hny', hval, _, _⟩ := hs.old_nodes y ny hny
    rw [Trie.getPath_eq_bind, Trie.getPath_eq_bind, hs.root_eq, hnavt, hnavt',
      Option.some_bind, Option.some_bind, hny, hny', Option.some_bind,
      Option.some_bind, hval, if_neg hyx]
  | none =>
    have htq : t.getPath q = none := by
      rw [Trie.getPath_eq_bind, hnavt]
      rfl
    rw [htq, Trie.getPath_eq_bind, hs.root_eq]
    obtain ⟨q1, i, q2, z, n, heq, hnav1, hzn, hzc⟩ :=
      Trie.navKey_none_decomp t q t.root hroot (fun r hr => (hclosed r hr).1) hnavt
    have hnav1' : t'.navKey t.root q1 = some z :=
      Trie.navKey_mono t t' hpres q1 t.root z hnav1
    obtain ⟨n', hn', _, hnone', _⟩ := hs.old_nodes z n hzn
    rw [heq, Trie.navKey_append, hnav1', Option.some_bind]
    cases hnone' i hzc with
    | inl hc' =>
      rw [Trie.navKey_cons_noChild t' z i q2 n' hn' hc']
      rfl
    | inr hfc =>
      obtain ⟨f, hf, hfc2⟩ := hfc
      rw [Trie.navKey_cons_some t' z i q2 n' f hn' hfc2]
      cases Trie.navKey_fresh hs.fresh_nodes q2 f hf with
      | inl hnone2 =>
        rw [hnone2]
        rfl
      | inr hsome2 =>
        obtain ⟨w2, hw2, hnav2⟩ := hsome2
        rw [hnav2, Option.some_bind]
        obtain ⟨nw, hnw, hnwv, _⟩ := hs.fresh_nodes w2 hw2
        have hw2x : w2 ≠ x := by
          intro hxw
          apply hq
          have h1 : t'.navKey t'.root q = some x := by
            rw [hs.root_eq, heq, Trie.navKey_append, hnav1', Option.some_bind,
              Trie.navKey_cons_some t' z i q2 n' f hn' hfc2, hnav2, hxw]
          have h2 : t'.navKey t'.root p = some x := by
            rw [hs.root_eq]
            exact hs.nav
          exact Trie.navKey_inj t' hwf' q p x h1 h2
        rw [hnw, Option.some_bind, hnwv, if_neg hw2x]


/-- C4: on a well-formed arena trie (src/trie.rs), insert always succeeds and
immediately afterwards get on the same key (including the zero-length key,
which addresses the root node's own value slot) returns the value just
inserted; well-formedness is preserved, and inserting the empty key leaves the
result of get at every other key unchanged. -/
theorem claim_C4_insert_get_roundtrip {T : Type} (t : Trie T) (key : List Byte)
    (v : T) (hwf : t.wf = true) :
    ∃ t' old, t.insert key v = some (t', old) ∧
      t'.get key = some v ∧ t'.wf = true ∧
      ∀ key2 : List Byte, key = [] → key2 ≠ [] → t'.get key2 = t.get key2 := by
  obtain ⟨t', old, x, fresh, hrun, hs, hwf'⟩ :=
    Trie.insertPath_full t (buildPath key) v hwf (buildPath_lt_16 key)
  refine ⟨t', old, hrun, ?_, hwf', ?_⟩
  · obtain ⟨n', hn', hval⟩ := hs.val_x
    show t'.getPath (buildPath key) = some v
    rw [Trie.getPath_eq_bind, hs.root_eq, hs.nav, Option.some_bind, hn',
      Option.some_bind, hval]
  · intro key2 hk hk2
    show t'.getPath (buildPath key2) = t.getPath (buildPath key2)
    apply Trie.getPath_frame hwf hs hwf'
    intro hcontra
    exact hk2 ((buildPath_injective key2 key hcontra).trans hk)

theorem claim_C4_insert_get_roundtrip_witness :
    (Trie.new : Trie Nat).wf = true ∧
    ∃ t' old, (Trie.new : Trie Nat).insert [97] 5 = some (t', old) ∧
      t'.get [97] = some 5 ∧ t'.wf = true ∧
      ∀ key2 : List Byte, ([97] : List Byte) = [] → key2 ≠ [] →
        t'.get key2 = (Trie.new : Trie Nat).get key2 :=
  ⟨by decide, claim_C4_insert_get_roundtrip Trie.new [97] 5 (by decide)⟩

/-- C6: replace semantics. On a well-formed arena trie (src/trie.rs),
re-inserting an existing key returns the previous value and leaves the stored
length unchanged, while inserting an absent key returns none and increments
the length by exactly one; the crate-root Trie of src/lib.rs behaves the same
way on insert. -/
theorem claim_C6_replace_semantics {T : Type} (t : Trie T) (key : List Byte)
    (v1 v2 : T) (lt : LibTrie T) (hwf : t.wf = true) :
    (∃ t1 old1, t.insert key v1 = some (t1, old1) ∧
      ∃ t2, t1.insert key v2 = some (t2, some v1) ∧ t2.len = t1.len) ∧
    (t.get key = none → ∃ t', t.insert key v1 = some (t', none) ∧
      t'.len = t.len + 1) ∧
    ((lt.insert key v1).1.insert key v2).2 = some v1 ∧
    ((lt.insert key v1).1.insert key v2).1.len = (lt.insert key v1).1.len ∧
    (lt.get key = none → (lt.insert key v1).2 = none ∧
      (lt.insert key v1).1.len = lt.len + 1) := by
  refine ⟨?_, ?_, ?_, ?_, ?_⟩
  · obtain ⟨t1, old1, x1, fresh1, hrun1, hs1, hwf1⟩ :=
      Trie.insertPath_full t (buildPath key) v1 hwf (buildPath_lt_16 key)
    obtain ⟨t2, old2, x2, fresh2, hrun2, hs2, hwf2⟩ :=
      Trie.insertPath_full t1 (buildPath key) v2 hwf1 (buildPath_lt_16 key)
    have hget1 : t1.getPath (buildPath key) = some v1 := by
      obtain ⟨n', hn', hval⟩ := hs1.val_x
      rw [Trie.getPath_eq_bind, hs1.root_eq, hs1.nav, Option.some_bind, hn',
        Option.some_bind, hval]
    have hold2 : old2 = some v1 := by
      rw [hs2.old_eq, ← Trie.getPath_eq_bind, hget1]
    refine ⟨t1, old1, hrun1, t2, ?_, ?_⟩
    · rw [← hold2]
      exact hrun2
    · rw [hs2.len_eq, hold2]
      rfl
  · intro hnone
    obtain ⟨t1, old1, x1, fresh1, hrun1, hs1, hwf1⟩ :=
      Trie.insertPath_full t (buildPath key) v1 hwf (buildPath_lt_16 key)
    have hold1 : old1 = none := by
      rw [hs1.old_eq, ← Trie.getPath_eq_bind]
      exact hnone
    refine ⟨t1, ?_, ?_⟩
    · rw [← hold1]
      exact hrun1
    · rw [hs1.len_eq, hold1]
      rfl
  · rw [LibTrie.insert_snd, LibTrie.get_insert_self]
  · rw [LibTrie.insert_len, LibTrie.get_insert_self]
    rfl
  · intro hnone
    constructor
    · rw [LibTrie.insert_snd]
      exact hnone
    · rw [LibTrie.insert_len, hnone]
      rfl

theorem claim_C6_replace_semantics_witness :
    (Trie.new : Trie Nat).wf = true ∧
    ((∃ t1 old1, (Trie.new : Trie Nat).insert [97] 3 = some (t1, old1) ∧
      ∃ t2, t1.insert [97] 4 = some (t2, some 3) ∧ t2.len = t1.len) ∧
    ((Trie.new : Trie Nat).get [97] = none →
      ∃ t', (Trie.new : Trie Nat).insert [97] 3 = some (t', none) ∧
        t'.len = (Trie.new : Trie Nat).len + 1) ∧
    (((LibTrie.new : LibTrie Nat).insert [97] 3).1.insert [97] 4).2 = some 3 ∧
    (((LibTrie.new : LibTrie Nat).insert [97] 3).1.insert [97] 4).1.len =
      ((LibTrie.new : LibTrie Nat).insert [97] 3).1.len ∧
    ((LibTrie.new : LibTrie Nat).get [97] = none →
      ((LibTrie.new : LibTrie Nat).insert [97] 3).2 = none ∧
      ((LibTrie.new : LibTrie Nat).insert [97] 3).1.len =
        (LibTrie.new : LibTrie Nat).len + 1)) :=
  ⟨by decide, claim_C6_replace_semantics Trie.new [97] 3 4 LibTrie.new (by decide)⟩

/-- C10: insert frame property. On a well-formed arena trie (src/trie.rs),
inserting key k does not change the result of get at any key whose nibble path
differs; the crate-root Trie of src/lib.rs has the same frame property. -/
theorem claim_C10_insert_frame {T : Type} (t : Trie T) (key key2 : List Byte)
    (v : T) (lt : LibTrie T) (hwf : t.wf = true)
    (hne : buildPath key ≠ buildPath key2) :
    (∃ t' old, t.insert key v = some (t', old) ∧ t'.get key2 = t.get key2) ∧
    (lt.insert key v).1.get key2 = lt.get key2 := by
  constructor
  · obtain ⟨t', old, x, fresh, hrun, hs, hwf'⟩ :=
      Trie.insertPath_full t (buildPath key) v hwf (buildPath_lt_16 key)
    refine ⟨t', old, hrun, ?_⟩
    show t'.getPath (buildPath key2) = t.getPath (buildPath key2)
    exact Trie.getPath_frame hwf hs hwf' (buildPath key2) (fun h => hne h.symm)
  · refine LibTrie.get_insert_ne lt key key2 v ?_
    intro h
    apply hne
    rw [h]

theorem claim_C10_insert_frame_witness :
    (Trie.new : Trie Nat).wf = true ∧
    buildPath [97] ≠ buildPath [98] ∧
    ((∃ t' old, (Trie.new : Trie Nat).insert [97] 5 = some (t', old) ∧
        t'.get [98] = (Trie.new : Trie Nat).get [98]) ∧
      ((LibTrie.new : LibTrie Nat).insert [97] 5).1.get [98] =
        (LibTrie.new : LibTrie Nat).get [98]) :=
  ⟨by decide, by decide,
    claim_C10_insert_frame Trie.new [97] [98] 5 LibTrie.new (by decide) (by decide)⟩


theorem TrieNode.childKey_ge16 {T : Type} (n : TrieNode T) (i : Nat) (h : ¬ i < 16) :
    n.childKey i = none := by
  simp [TrieNode.childKey, h]

theorem TrieNode.childKey_of_hasChild_false {T : Type} (n : TrieNode T)
    (h : n.hasChild = false) (i : Nat) : n.childKey i = none := by
  by_cases hi : i < 16
  · rw [TrieNode.hasChild, List.any_eq_false] at h
    have h2 := h i (List.mem_range.mpr hi)
    cases hck : n.childKey i with
    | none => rfl
    | some c =>
      rw [hck] at h2
      exact absurd rfl h2
  · exact TrieNode.childKey_ge16 n i hi

theorem TrieNode.childKey_unique {T : Type} (n : TrieNode T)
    (h : n.hasMultipleChildren = false) (i c : Nat) (hc : n.childKey i = some c)
    (i2 : Nat) (hne : i2 ≠ i) : n.childKey i2 = none := by
  cases hc2 : n.childKey i2 with
  | none => rfl
  | some c2 =>
    exfalso
    have hi : i < 16 := TrieNode.lt_of_childKey_some n i c hc
    have hi2 : i2 < 16 := TrieNode.lt_of_childKey_some n i2 c2 hc2
    rw [TrieNode.hasMultipleChildren] at h
    have hcount : 1 < (List.range 16).countP (fun j => (n.childKey j).isSome) := by
      rw [List.countP_eq_length_filter]
      have hsub : [i2, i] ⊆ (List.range 16).filter
          (fun j => (n.childKey j).isSome) := by
        intro a ha
        rw [List.mem_filter]
        rcases List.mem_cons.mp ha with h1 | h1
        · subst h1
          exact ⟨List.mem_range.mpr hi2, by rw [hc2]; rfl⟩
        · rw [List.mem_singleton] at h1
          subst h1
          exact ⟨List.mem_range.mpr hi, by rw [hc]; rfl⟩
      have hnd2 : ([i2, i] : List Nat).Nodup := by simp [hne]
      have hle := (List.subperm_of_subset hnd2 hsub).length_le
      simp only [List.length_cons, List.length_singleton] at hle
      omega
    exact absurd hcount (of_decide_eq_false h)

theorem Trie.navKey_congr {T : Type} (t t' : Trie T)
    (h : ∀ j i, (alookup j t'.arena).map (fun n => n.childKey i) =
      (alookup j t.arena).map (fun n => n.childKey i)) :
    ∀ (q : List Nat) (k : Nat), t'.navKey k q = t.navKey k q := by
  intro q
  induction q with
  | nil =>
    intro k
    rw [Trie.navKey_nil, Trie.navKey_nil]
  | cons a rest ih =>
    intro k
    cases hn : alookup k t.arena with
    | none =>
      have hn' : alookup k t'.arena = none := by
        have h2 := h k a
        rw [hn] at h2
        exact Option.map_eq_none'.mp h2
      rw [Trie.navKey_cons_noNode t k a rest hn, Trie.navKey_cons_noNode t' k a rest hn']
    | some n =>
      have h2 := h k a
      rw [hn] at h2
      cases hn' : alookup k t'.arena with
      | none =>
        rw [hn'] at h2
        exact absurd h2 (by simp)
      | some n2 =>
        rw [hn'] at h2
        have hck : n2.childKey a = n.childKey a := Option.some.inj h2
        cases hc : n.childKey a with
        | none =>
          rw [Trie.navKey_cons_noChild t k a rest n hn hc,
            Trie.navKey_cons_noChild t' k a rest n2 hn' (hck.trans hc)]
        | some c =>
          rw [Trie.navKey_cons_some t k a rest n c hn hc,
            Trie.navKey_cons_some t' k a rest n2 c hn' (hck.trans hc)]
          exact ih c

theorem Trie.navKeys_spec {T : Type} (t : Trie T) :
    ∀ (p : List Nat) (k : Nat) (l : List Nat), t.navKeys k p = some l →
      l.length = p.length + 1 ∧
      (∀ j, j ≤ p.length → t.navKey k (p.take j) = some (l.getD j 0)) ∧
      (∀ j, j < p.length → ∃ n, alookup (l.getD j 0) t.arena = some n ∧
        n.childKey (p.getD j 0) = some (l.getD (j + 1) 0)) ∧
      (∀ d, t.navKey k p = some (l.getLastD d)) := by
  intro p
  induction p with
  | nil =>
    intro k l h
    have h2 : some [k] = some l := h
    cases h2
    refine ⟨rfl, ?_, ?_, fun d => rfl⟩
    · intro j hj
      have hj0 : j = 0 := Nat.le_zero.mp hj
      subst hj0
      rfl
    · intro j hj
      exact absurd hj (Nat.not_lt_zero j)
  | cons i rest ih =>
    intro k l h
    cases hn : alookup k t.arena with
    | none => simp [Trie.navKeys, hn] at h
    | some node =>
      cases hc : node.childKey i with
      | none => simp [Trie.navKeys, hn, hc] at h
      | some ck =>
        simp only [Trie.navKeys, hn, hc] at h
        cases hrec : t.navKeys ck rest with
        | none =>
          rw [hrec] at h
          exact absurd h (by simp)
        | some l2 =>
          rw [hrec] at h
          have hl : l = k :: l2 := by
            have h3 : some (k :: l2) = some l := h
            exact (Option.some.inj h3).symm
          subst hl
          obtain ⟨ih1, ih2, ih3, ih4⟩ := ih ck l2 hrec
          refine ⟨by simp [ih1], ?_, ?_, ?_⟩
          · intro j hj
            cases j with
            | zero => exact Trie.navKey_nil t k
            | succ j2 =>
              rw [List.take_succ_cons,
                Trie.navKey_cons_some t k i (rest.take j2) node ck hn hc]
              exact ih2 j2 (by simpa using hj)
          · intro j hj
            cases j with
            | zero =>
              have h0 := ih2 0 (Nat.zero_le _)
              rw [List.take_zero, Trie.navKey_nil] at h0
              have hck0 : ck = l2.getD 0 0 := Option.some.inj h0
              refine ⟨node, hn, ?_⟩
              show node.childKey i = some (l2.getD 0 0)
              rw [hc]
              exact congrArg some hck0
            | succ j2 =>
              exact ih3 j2 (by simpa using hj)
          · intro d
            rw [Trie.navKey_cons_some t k i rest node ck hn hc, List.getLastD_cons]
            exact ih4 k

theorem Trie.navKeys_isSome {T : Type} (t : Trie T) :
    ∀ (p : List Nat) (k y : Nat), t.navKey k p = some y →
      ∃ l, t.navKeys k p = some l := by
  intro p
  induction p with
  | nil =>
    intro k y _
    exact ⟨[k], rfl⟩
  | cons i rest ih =>
    intro k y h
    cases hn : alookup k t.arena with
    | none =>
      rw [Trie.navKey_cons_noNode t k i rest hn] at h
      exact absurd h (by simp)
    | some n =>
      cases hc : n.childKey i with
      | none =>
        rw [Trie.navKey_cons_noChild t k i rest n hn hc] at h
        exact absurd h (by simp)
      | some ck =>
        rw [Trie.navKey_cons_some t k i rest n ck hn hc] at h
        obtain ⟨l2, hl2⟩ := ih ck y h
        refine ⟨k :: l2, ?_⟩
        simp only [Trie.navKeys, hn, hc, hl2]
        rfl

theorem Trie.scanClean_mem {T : Type} (t : Trie T) (m : Nat) :
    ∀ (l : List (Nat × Nat)) (ci : Nat), t.scanClean m l = some (some ci) →
      ci ∈ l.map Prod.fst := by
  intro l
  induction l with
  | nil =>
    intro ci h
    simp [Trie.scanClean] at h
  | cons hd rest ih =>
    intro ci h
    obtain ⟨i, key⟩ := hd
    rw [List.map_cons]
    cases hn : alookup key t.arena with
    | none => simp [Trie.scanClean, hn] at h
    | some node =>
      simp only [Trie.scanClean, hn] at h
      by_cases hkeep : (if i = m then node.hasChild
          else (node.value.isSome || node.hasMultipleChildren)) = true
      · rw [if_pos hkeep] at h
        have hic : i = ci := Option.some.inj (Option.some.inj h)
        exact List.mem_cons.mpr (Or.inl hic.symm)
      · rw [if_neg hkeep] at h
        by_cases h0 : i = 0
        · rw [if_pos h0] at h
          have hic : (0 : Nat) = ci := Option.some.inj (Option.some.inj h)
          exact List.mem_cons.mpr (Or.inl (hic.symm.trans h0.symm))
        · rw [if_neg h0] at h
          exact List.mem_cons.mpr (Or.inr (ih ci h))

theorem Trie.scanClean_gt {T : Type} (t : Trie T) (m : Nat) :
    ∀ (l : List (Nat × Nat)) (ci : Nat), t.scanClean m l = some (some ci) →
      l.Pairwise (fun a b => b.1 < a.1) →
      ∀ e ∈ l, ci < e.1 → ∃ ne, alookup e.2 t.arena = some ne ∧
        (e.1 = m → ne.hasChild = false) ∧
        (e.1 ≠ m → ne.value = none ∧ ne.hasMultipleChildren = false) := by
  intro l
  induction l with
  | nil =>
    intro ci _ _ e he
    exact absurd he (List.not_mem_nil e)
  | cons hd rest ih =>
    intro ci h hpw e he hci
    obtain ⟨i, key⟩ := hd
    cases hn : alookup key t.arena with
    | none => simp [Trie.scanClean, hn] at h
    | some node =>
      simp only [Trie.scanClean, hn] at h
      by_cases hkeep : (if i = m then node.hasChild
          else (node.value.isSome || node.hasMultipleChildren)) = true
      · rw [if_pos hkeep] at h
        have hic : i = ci := Option.some.inj (Option.some.inj h)
        rcases List.mem_cons.mp he with he1 | he2
        · subst he1
          exact absurd (show ci < i from hci) (by omega)
        · have hlt : e.1 < i := (List.pairwise_cons.mp hpw).1 e he2
          exact absurd (show ci < e.1 from hci) (by omega)
      · rw [if_neg hkeep] at h
        by_cases h0 : i = 0
        · rw [if_pos h0] at h
          have hci0 : (0 : Nat) = ci := Option.some.inj (Option.some.inj h)
          rcases List.mem_cons.mp he with he1 | he2
          · subst he1
            exact absurd (show ci < i from hci) (by omega)
          · have hlt : e.1 < i := (List.pairwise_cons.mp hpw).1 e he2
            exact absurd (show ci < e.1 from hci) (by omega)
        · rw [if_neg h0] at h
          rcases List.mem_cons.mp he with he1 | he2
          · subst he1
            refine ⟨node, hn, ?_, ?_⟩
            · intro him
              have him2 : i = m := him
              rw [if_pos him2] at hkeep
              exact Bool.eq_false_iff.mpr hkeep
            · intro him
              have him2 : ¬ i = m := him
              rw [if_neg him2] at hkeep
              have hor : (node.value.isSome || node.hasMultipleChildren) = false :=
                Bool.eq_false_iff.mpr hkeep
              obtain ⟨h1, h2⟩ := Bool.or_eq_false_iff.mp hor
              refine ⟨?_, h2⟩
              cases hv : node.value with
              | none => rfl
              | some w =>
                rw [hv] at h1
                exact absurd h1 (by simp)
          · exact ih ci h (List.pairwise_cons.mp hpw).2 e he2 hci

theorem Trie.scanClean_isSome {T : Type} (t : Trie T) (m : Nat) :
    ∀ (l : List (Nat × Nat)),
      (∀ e ∈ l, (alookup e.2 t.arena).isSome = true) →
      (t.scanClean m l).isSome = true := by
  intro l
  induction l with
  | nil => intro _; rfl
  | cons hd rest ih =>
    intro hl
    obtain ⟨i, key⟩ := hd
    obtain ⟨node, hn⟩ := Option.isSome_iff_exists.mp
      (hl (i, key) (List.mem_cons_self _ _))
    show (t.scanClean m ((i, key) :: rest)).isSome = true
    simp only [Trie.scanClean, hn]
    by_cases hkeep : (if i = m then node.hasChild
        else (node.value.isSome || node.hasMultipleChildren)) = true
    · rw [if_pos hkeep]
      rfl
    · rw [if_neg hkeep]
      by_cases h0 : i = 0
      · rw [if_pos h0]
        rfl
      · rw [if_neg h0]
        exact ih (fun e he => hl e (List.mem_cons_of_mem _ he))

theorem Trie.cleanupLoop_sound {T : Type} (t : Trie T) (start : Nat) :
    ∀ (fuel : Nat) (stack acc : List Nat),
      (∀ y ∈ stack, ∃ r, t.navKey start r = some y) →
      (∀ y ∈ acc, ∃ r, t.navKey start r = some y) →
      ∀ y ∈ t.cleanupLoop fuel stack acc, ∃ r, t.navKey start r = some y := by
  intro fuel
  induction fuel with
  | zero =>
    intro stack acc _ hacc y hy
    exact hacc y hy
  | succ f ih =>
    intro stack acc hstack hacc y hy
    cases stack with
    | nil => exact hacc y hy
    | cons k st =>
      cases hn : alookup k t.arena with
      | none =>
        rw [show t.cleanupLoop (f + 1) (k :: st) acc = t.cleanupLoop f st acc from by
          simp [Trie.cleanupLoop, hn]] at hy
        exact ih st acc (fun y2 hy2 => hstack y2 (List.mem_cons_of_mem _ hy2)) hacc y hy
      | some node =>
        rw [show t.cleanupLoop (f + 1) (k :: st) acc =
            t.cleanupLoop f (node.refsOf ++ st) (k :: acc) from by
          simp [Trie.cleanupLoop, hn]] at hy
        obtain ⟨rk, hrk⟩ := hstack k (List.mem_cons_self _ _)
        refine ih (node.refsOf ++ st) (k :: acc) ?_ ?_ y hy
        · intro y2 hy2
          rcases List.mem_append.mp hy2 with h2 | h2
          · obtain ⟨i2, hi2, hc2⟩ := (TrieNode.mem_refsOf node y2).mp h2
            refine ⟨rk ++ [i2], ?_⟩
            rw [Trie.navKey_append_one, hrk, Option.some_bind, hn, Option.some_bind, hc2]
          · exact hstack y2 (List.mem_cons_of_mem _ h2)
        · intro y2 hy2
          rcases List.mem_cons.mp hy2 with h2 | h2
          · subst h2
            exact ⟨rk, hrk⟩
          · exact hacc y2 h2

theorem Trie.cleanupCollect_sound {T : Type} (t : Trie T) (start y : Nat)
    (hy : y ∈ t.cleanupCollect start) : ∃ r, t.navKey start r = some y :=
  Trie.cleanupLoop_sound t start (t.arena.length + 1) [start] []
    (fun y2 hy2 => by
      rcases List.mem_cons.mp hy2 with h | h
      · subst h
        exact ⟨[], Trie.navKey_nil t y2⟩
      · exact absurd h (List.not_mem_nil y2))
    (fun y2 hy2 => absurd hy2 (List.not_mem_nil y2)) y hy


theorem Trie.clearValue_frame {T : Type} (t : Trie T) (x0 : Nat) (p : List Nat)
    (L : Nat) (hwf : t.wf = true) (hnav0 : t.navKey t.root p = some x0)
    (q : List Nat) (hq : q ≠ p) :
    ({ t.updateNode x0 (fun n => ⟨none, n.next⟩) with len := L } : Trie T).getPath q =
      t.getPath q := by
  have hlook1 : ∀ j,
      alookup j ({ t.updateNode x0 (fun n => ⟨none, n.next⟩) with len := L } : Trie T).arena =
        if j = x0 then (alookup j t.arena).map (fun n => (⟨none, n.next⟩ : TrieNode T))
        else alookup j t.arena := by
    intro j
    show alookup j (t.updateNode x0 (fun n => (⟨none, n.next⟩ : TrieNode T))).arena =
      if j = x0 then (alookup j t.arena).map (fun n => (⟨none, n.next⟩ : TrieNode T))
      else alookup j t.arena
    exact Trie.lookup_updateNode t x0 j _
  have hnavc : ∀ (q2 : List Nat) (k : Nat),
      ({ t.updateNode x0 (fun n => ⟨none, n.next⟩) with len := L } : Trie T).navKey k q2 =
        t.navKey k q2 := by
    apply Trie.navKey_congr
    intro j i
    rw [hlook1 j]
    by_cases hj : j = x0
    · rw [if_pos hj]
      cases hjt : alookup j t.arena with
      | none => rfl
      | some n => rfl
    · rw [if_neg hj]
  rw [Trie.getPath_eq_bind, Trie.getPath_eq_bind,
    show ({ t.updateNode x0 (fun n => ⟨none, n.next⟩) with len := L } : Trie T).root = t.root
      from rfl, hnavc]
  cases hnav : t.navKey t.root q with
  | none => rfl
  | some y =>
    have hyx : y ≠ x0 := by
      intro h
      apply hq
      exact Trie.navKey_inj t hwf q p x0 (by rw [← h]; exact hnav) hnav0
    rw [Option.some_bind, Option.some_bind, hlook1 y, if_neg hyx]


theorem Trie.deleteCleanup_frame {T : Type} (t : Trie T) (p : List Nat)
    (chain : List Nat) (ci : Nat) (hwf : t.wf = true)
    (hctake : ∀ j, j ≤ p.length → t.navKey t.root (p.take j) = some (chain.getD j 0))
    (hcstep : ∀ j, j < p.length → ∃ n, alookup (chain.getD j 0) t.arena = some n ∧
      n.childKey (p.getD j 0) = some (chain.getD (j + 1) 0))
    (hF : ∀ j, ci < j → j ≤ p.length →
      ∃ nj, alookup (chain.getD j 0) t.arena = some nj ∧
        (j = p.length → nj.hasChild = false) ∧
        (j ≠ p.length → nj.value = none ∧ nj.hasMultipleChildren = false))
    (hci : ci < p.length)
    (t1 t2 t3 : Trie T) (R : List Nat)
    (ht1 : t1 = { t.updateNode (chain.getD p.length 0) (fun n => ⟨none, n.next⟩) with
      len := t.len - 1 })
    (ht2 : t2 = t1.updateNode (chain.getD ci 0) (fun n => n.childRemove (p.getD ci 0)))
    (hR : R = t2.cleanupCollect (chain.getD (ci + 1) 0))
    (ht3 : t3 = t2.removeKeys R) :
    ∀ q, q ≠ p → t3.getPath q = t.getPath q := by
  have hTS : ∀ j, j < p.length → p.take (j + 1) = p.take j ++ [p.getD j 0] := by
    intro j hj
    rw [List.take_succ, List.getElem?_eq_getElem hj, List.getD_eq_getElem p 0 hj]
    rfl
  have hnav0 : t.navKey t.root p = some (chain.getD p.length 0) := by
    have h1 := hctake p.length (Nat.le_refl _)
    rw [List.take_length] at h1
    exact h1
  have hzx : chain.getD ci 0 ≠ chain.getD p.length 0 := by
    intro heq
    have h1 := hctake ci (Nat.le_of_lt hci)
    rw [heq] at h1
    have h2 := Trie.navKey_inj t hwf (p.take ci) p _ h1 hnav0
    have h3 := congrArg List.length h2
    rw [List.length_take] at h3
    omega
  have hnavz : t.navKey t.root (p.take ci) = some (chain.getD ci 0) :=
    hctake ci (Nat.le_of_lt hci)
  have hnavck : t.navKey t.root (p.take (ci + 1)) = some (chain.getD (ci + 1) 0) :=
    hctake (ci + 1) hci
  obtain ⟨nz, hnz, hzchild⟩ := hcstep ci hci
  have hlook1 : ∀ j, alookup j t1.arena =
      if j = chain.getD p.length 0
      then (alookup j t.arena).map (fun n => (⟨none, n.next⟩ : TrieNode T))
      else alookup j t.arena := by
    intro j
    rw [ht1]
    show alookup j (t.updateNode (chain.getD p.length 0)
      (fun n => (⟨none, n.next⟩ : TrieNode T))).arena = _
    exact Trie.lookup_updateNode t _ j _
  have hlook2 : ∀ j, alookup j t2.arena =
      if j = chain.getD ci 0
      then (alookup j t1.arena).map (fun n => n.childRemove (p.getD ci 0))
      else alookup j t1.arena := by
    intro j
    rw [ht2]
    exact Trie.lookup_updateNode t1 _ j _
  have hlook3 : ∀ j, alookup j t3.arena = if j ∈ R then none else alookup j t2.arena := by
    intro j
    rw [ht3]
    exact alookup_filter_keys R j t2.arena
  have ht3root : t3.root = t.root := by
    rw [ht3, ht2, ht1]
    rfl
  have hpres2t : ∀ j n, alookup j t2.arena = some n →
      ∃ n2, alookup j t.arena = some n2 ∧
        ∀ i c, n.childKey i = some c → n2.childKey i = some c := by
    intro j n hj
    rw [hlook2 j] at hj
    by_cases hjz : j = chain.getD ci 0
    · rw [if_pos hjz, hlook1 j] at hj
      by_cases hjx : j = chain.getD p.length 0
      · exact absurd (hjz.symm.trans hjx) hzx
      · rw [if_neg hjx] at hj
        cases hjt : alookup j t.arena with
        | none =>
          rw [hjt] at hj
          exact absurd hj (by simp)
        | some nt =>
          rw [hjt] at hj
          have hn2 : n = nt.childRemove (p.getD ci 0) := (Option.some.inj hj).symm
          refine ⟨nt, rfl, ?_⟩
          intro i c hc
          rw [hn2] at hc
          by_cases his : i = p.getD ci 0
          · rw [his, TrieNode.childKey_childRemove_self] at hc
            exact absurd hc (by simp)
          · rw [TrieNode.childKey_childRemove_ne nt (p.getD ci 0) i his] at hc
            exact hc
    · rw [if_neg hjz, hlook1 j] at hj
      by_cases hjx : j = chain.getD p.length 0
      · rw [if_pos hjx] at hj
        cases hjt : alookup j t.arena with
        | none =>
          rw [hjt] at hj
          exact absurd hj (by simp)
        | some nt =>
          rw [hjt] at hj
          have hn2 : n = ⟨none, nt.next⟩ := (Option.some.inj hj).symm
          refine ⟨nt, rfl, ?_⟩
          intro i c hc
          rw [hn2, TrieNode.childKey_mk_next] at hc
          exact hc
      · rw [if_neg hjx] at hj
        exact ⟨n, hj, fun i c hc => hc⟩
  have hReach : ∀ y ∈ R, ∃ r, t.navKey (chain.getD (ci + 1) 0) r = some y := by
    intro y hy
    rw [hR] at hy
    obtain ⟨r, hr⟩ := Trie.cleanupCollect_sound t2 (chain.getD (ci + 1) 0) y hy
    exact ⟨r, Trie.navKey_mono t2 t hpres2t r _ y hr⟩
  have hRq : ∀ y q1, y ∈ R → t.navKey t.root q1 = some y →
      ∃ r, q1 = p.take ci ++ p.getD ci 0 :: r := by
    intro y q1 hy hq1
    obtain ⟨r, hr⟩ := hReach y hy
    have h2 : t.navKey t.root (p.take (ci + 1) ++ r) = some y := by
      rw [Trie.navKey_append, hnavck, Option.some_bind]
      exact hr
    have h3 := Trie.navKey_inj t hwf q1 (p.take (ci + 1) ++ r) y hq1 h2
    refine ⟨r, ?_⟩
    rw [h3, hTS ci hci, List.append_assoc, List.singleton_append]
  have hzR : chain.getD ci 0 ∉ R := by
    intro hy
    obtain ⟨r, hr⟩ := hRq (chain.getD ci 0) (p.take ci) hy hnavz
    have hlen := congrArg List.length hr
    rw [List.length_append, List.length_cons] at hlen
    omega
  have hz3 : alookup (chain.getD ci 0) t3.arena =
      some (nz.childRemove (p.getD ci 0)) := by
    rw [hlook3 _, if_neg hzR, hlook2 _, if_pos rfl, hlook1 _, if_neg hzx, hnz]
    rfl
  have hL : ∀ (q2 q1 : List Nat) (w : Nat), t.navKey t.root q1 = some w →
      t3.navKey w q2 = t.navKey w q2 ∨
      ∃ r, q1 ++ q2 = p.take ci ++ p.getD ci 0 :: r := by
    intro q2
    induction q2 with
    | nil =>
      intro q1 w _
      refine Or.inl ?_
      rw [Trie.navKey_nil, Trie.navKey_nil]
    | cons a rest ih =>
      intro q1 w hw
      by_cases hwR : w ∈ R
      · obtain ⟨r1, hr1⟩ := hRq w q1 hwR hw
        refine Or.inr ⟨r1 ++ a :: rest, ?_⟩
        rw [hr1, List.append_assoc, List.cons_append]
      · cases hn : alookup w t.arena with
        | none =>
          have hn1 : alookup w t1.arena = none := by
            rw [hlook1 w]
            by_cases h : w = chain.getD p.length 0
            · rw [if_pos h, hn]
              rfl
            · rw [if_neg h]
              exact hn
          have hn2 : alookup w t2.arena = none := by
            rw [hlook2 w]
            by_cases h : w = chain.getD ci 0
            · rw [if_pos h, hn1]
              rfl
            · rw [if_neg h]
              exact hn1
          have hn3 : alookup w t3.arena = none := by
            rw [hlook3 w, if_neg hwR]
            exact hn2
          refine Or.inl ?_
          rw [Trie.navKey_cons_noNode t3 w a rest hn3, Trie.navKey_cons_noNode t w a rest hn]
        | some nw =>
          by_cases hwz : w = chain.getD ci 0 ∧ a = p.getD ci 0
          · obtain ⟨hwz1, hwz2⟩ := hwz
            have hq1 : q1 = p.take ci :=
              Trie.navKey_inj t hwf q1 (p.take ci) (chain.getD ci 0)
                (by rw [← hwz1]; exact hw) hnavz
            refine Or.inr ⟨rest, ?_⟩
            rw [hq1, hwz2]
          · have hch3 : ∃ nw3, alookup w t3.arena = some nw3 ∧
                nw3.childKey a = nw.childKey a := by
              by_cases hwx : w = chain.getD p.length 0
              · refine ⟨⟨none, nw.next⟩, ?_, TrieNode.childKey_mk_next none nw a⟩
                rw [hlook3 w, if_neg hwR, hlook2 w,
                  if_neg (fun h => hzx (h.symm.trans hwx)), hlook1 w, if_pos hwx, hn]
                rfl
              · by_cases hwz2 : w = chain.getD ci 0
                · have has : ¬ a = p.getD ci 0 := fun h => hwz ⟨hwz2, h⟩
                  refine ⟨nw.childRemove (p.getD ci 0), ?_,
                    TrieNode.childKey_childRemove_ne nw (p.getD ci 0) a has⟩
                  rw [hlook3 w, if_neg hwR, hlook2 w, if_pos hwz2, hlook1 w,
                    if_neg hwx, hn]
                  rfl
                · refine ⟨nw, ?_, rfl⟩
                  rw [hlook3 w, if_neg hwR, hlook2 w, if_neg hwz2, hlook1 w,
                    if_neg hwx]
                  exact hn
            obtain ⟨nw3, hnw3, hck3⟩ := hch3
            cases hc : nw.childKey a with
            | none =>
              refine Or.inl ?_
              rw [Trie.navKey_cons_noChild t3 w a rest nw3 hnw3 (hck3.trans hc),
                Trie.navKey_cons_noChild t w a rest nw hn hc]
            | some c =>
              have hw2 : t.navKey t.root (q1 ++ [a]) = some c := by
                rw [Trie.navKey_append_one, hw, Option.some_bind, hn, Option.some_bind, hc]
              cases ih (q1 ++ [a]) c hw2 with
              | inl heq =>
                refine Or.inl ?_
                rw [Trie.navKey_cons_some t3 w a rest nw3 c hnw3 (hck3.trans hc),
                  Trie.navKey_cons_some t w a rest nw c hn hc]
                exact heq
              | inr hr =>
                obtain ⟨r, hr⟩ := hr
                refine Or.inr ⟨r, ?_⟩
                rw [← hr, List.append_assoc, List.singleton_append]
  have hCW : ∀ (q2 : List Nat) (j : Nat), ci < j → j ≤ p.length →
      t.navKey (chain.getD j 0) q2 = none ∨
      ∃ j2, j ≤ j2 ∧ j2 ≤ p.length ∧
        t.navKey (chain.getD j 0) q2 = some (chain.getD j2 0) ∧
        p.take j2 = p.take j ++ q2 := by
    intro q2
    induction q2 with
    | nil =>
      intro j h1 h2
      exact Or.inr ⟨j, Nat.le_refl j, h2, Trie.navKey_nil _ _, by rw [List.append_nil]⟩
    | cons a rest ih =>
      intro j h1 h2
      obtain ⟨nj, hnj, hnjm, hnjlt⟩ := hF j h1 h2
      rcases Nat.lt_or_ge j p.length with hjm | hjm
      · obtain ⟨hvnone, hmulti⟩ := hnjlt (by omega)
        obtain ⟨nj2, hnj2, hstep⟩ := hcstep j hjm
        rw [hnj] at hnj2
        have heqn : nj = nj2 := Option.some.inj hnj2
        rw [← heqn] at hstep
        by_cases ha : a = p.getD j 0
        · have hchild_a : nj.childKey a = some (chain.getD (j + 1) 0) := by
            rw [ha]
            exact hstep
          rw [Trie.navKey_cons_some t (chain.getD j 0) a rest nj
            (chain.getD (j + 1) 0) hnj hchild_a]
          cases ih (j + 1) (by omega) (by omega) with
          | inl h3 => exact Or.inl h3
          | inr h3 =>
            obtain ⟨j2, hj21, hj22, hnav2, htake2⟩ := h3
            refine Or.inr ⟨j2, by omega, hj22, hnav2, ?_⟩
            rw [htake2, hTS j hjm, List.append_assoc, List.singleton_append, ha]
        · have hnone : nj.childKey a =
              none := TrieNode.childKey_unique nj hmulti (p.getD j 0)
                (chain.getD (j + 1) 0) hstep a ha
          exact Or.inl (Trie.navKey_cons_noChild t _ a rest nj hnj hnone)
      · have hjm2 : j = p.length := by omega
        have hchildless := hnjm hjm2
        exact Or.inl (Trie.navKey_cons_noChild t _ a rest nj hnj
          (TrieNode.childKey_of_hasChild_false nj hchildless a))
  intro q hq
  by_cases hpass : ∃ q2, q = p.take ci ++ p.getD ci 0 :: q2
  · obtain ⟨q2, hq2⟩ := hpass
    have hnavz3 : t3.navKey t.root (p.take ci) = some (chain.getD ci 0) := by
      cases hL (p.take ci) [] t.root (Trie.navKey_nil t t.root) with
      | inl heq =>
        rw [heq]
        exact hnavz
      | inr hr =>
        obtain ⟨r, hr⟩ := hr
        rw [List.nil_append] at hr
        exfalso
        have hlen := congrArg List.length hr
        rw [List.length_append, List.length_cons] at hlen
        omega
    have hdeath : t3.navKey t.root q = none := by
      rw [hq2, Trie.navKey_append t3 (p.take ci) (p.getD ci 0 :: q2) t.root, hnavz3,
        Option.some_bind,
        Trie.navKey_cons_noChild t3 (chain.getD ci 0) (p.getD ci 0) q2
          (nz.childRemove (p.getD ci 0)) hz3
          (TrieNode.childKey_childRemove_self nz (p.getD ci 0))]
    have htnone : t.getPath q = none := by
      rw [Trie.getPath_eq_bind, hq2,
        Trie.navKey_append t (p.take ci) (p.getD ci 0 :: q2) t.root, hnavz,
        Option.some_bind,
        Trie.navKey_cons_some t (chain.getD ci 0) (p.getD ci 0) q2 nz
          (chain.getD (ci + 1) 0) hnz hzchild]
      cases hCW q2 (ci + 1) (Nat.lt_succ_self ci) hci with
      | inl hnone =>
        rw [hnone]
        rfl
      | inr hsome =>
        obtain ⟨j2, hj21, hj22, hnav2, htake2⟩ := hsome
        rcases Nat.lt_or_ge j2 p.length with hj2m | hj2m
        · obtain ⟨nj2, hnj2, _, hprops⟩ := hF j2 (by omega) hj22
          obtain ⟨hvnone, _⟩ := hprops (by omega)
          rw [hnav2, Option.some_bind, hnj2, Option.some_bind, hvnone]
        · exfalso
          have hj2e : j2 = p.length := Nat.le_antisymm hj22 hj2m
          subst hj2e
          rw [List.take_length] at htake2
          apply hq
          have hstepq : p.take ci ++ p.getD ci 0 :: q2 = p.take (ci + 1) ++ q2 := by
            rw [hTS ci hci, List.append_assoc, List.singleton_append]
          rw [hq2, hstepq, ← htake2]
    have h3none : t3.getPath q = none := by
      rw [Trie.getPath_eq_bind, ht3root, hdeath]
      rfl
    rw [h3none, htnone]
  · cases hL q [] t.root (Trie.navKey_nil t t.root) with
    | inr hr =>
      obtain ⟨r, hr⟩ := hr
      rw [List.nil_append] at hr
      exact absurd ⟨r, hr⟩ hpass
    | inl heq =>
      rw [Trie.getPath_eq_bind, Trie.getPath_eq_bind, ht3root, heq]
      cases hnavq : t.navKey t.root q with
      | none => rfl
      | some y =>
        rw [Option.some_bind, Option.some_bind]
        have hyR : y ∉ R := by
          intro hy
          obtain ⟨r, hr⟩ := hRq y q hy hnavq
          exact hpass ⟨r, hr⟩
        have hyx : y ≠ chain.getD p.length 0 := by
          intro h
          apply hq
          exact Trie.navKey_inj t hwf q p _ (by rw [← h]; exact hnavq) hnav0
        by_cases hyz : y = chain.getD ci 0
        · rw [hlook3 y, if_neg hyR, hlook2 y, if_pos hyz, hlook1 y, if_neg hyx]
          cases hty : alookup y t.arena with
          | none => rfl
          | some ny => rfl
        · rw [hlook3 y, if_neg hyR, hlook2 y, if_neg hyz, hlook1 y, if_neg hyx]


theorem Trie.deletePath_spec {T : Type} (t : Trie T) (p : List Nat) (v : T)
    (hwf : t.wf = true) (hget : t.getPath p = some v) :
    (t.deletePath p).2 = some v ∧ (t.deletePath p).1.len = t.len - 1 ∧
    ∀ q, q ≠ p → (t.deletePath p).1.getPath q = t.getPath q := by
  have hget2 := hget
  rw [Trie.getPath_eq_bind] at hget2
  cases hnav : t.navKey t.root p with
  | none =>
    rw [hnav] at hget2
    exact absurd hget2 (by simp)
  | some x0 =>
    rw [hnav, Option.some_bind] at hget2
    cases htx : alookup x0 t.arena with
    | none =>
      rw [htx] at hget2
      exact absurd hget2 (by simp)
    | some tnode =>
      rw [htx, Option.some_bind] at hget2
      obtain ⟨chain, hchain⟩ := Trie.navKeys_isSome t p t.root x0 hnav
      obtain ⟨hclen, hctake, hcstep, hclast⟩ := Trie.navKeys_spec t p t.root chain hchain
      have hx0 : chain.getLastD t.root = x0 := by
        have h2 := hclast t.root
        rw [hnav] at h2
        exact (Option.some.inj h2).symm
      have hxD : chain.getD p.length 0 = x0 := by
        have h2 := hctake p.length (Nat.le_refl _)
        rw [List.take_length, hnav] at h2
        exact (Option.some.inj h2).symm
      have hcnode : ∀ j, j ≤ p.length →
          (alookup (chain.getD j 0) t.arena).isSome = true := by
        intro j hj
        rcases Nat.lt_or_ge j p.length with hlt | hge
        · obtain ⟨n, hn, _⟩ := hcstep j hlt
          rw [hn]
          rfl
        · have hj2 : j = p.length := Nat.le_antisymm hj hge
          subst hj2
          rw [hxD, htx]
          rfl
      have henum : ∀ e ∈ chain.enum.reverse, e.1 < chain.length ∧
          e.2 = chain.getD e.1 0 := by
        intro e he
        rw [List.mem_reverse, List.mem_enum_iff_getElem?, List.getElem?_eq_some] at he
        obtain ⟨hlt, hval⟩ := he
        refine ⟨hlt, ?_⟩
        rw [List.getD_eq_getElem chain 0 hlt]
        exact hval.symm
      have hscan : (t.scanClean (chain.length - 1) chain.enum.reverse).isSome = true :=
        Trie.scanClean_isSome t _ chain.enum.reverse (fun e he => by
          obtain ⟨hlt, hval⟩ := henum e he
          rw [hval]
          exact hcnode e.1 (by omega))
      cases hsc : t.scanClean (chain.length - 1) chain.enum.reverse with
      | none =>
        rw [hsc] at hscan
        exact absurd hscan (by simp)
      | some cleanupIndex =>
        cases cleanupIndex with
        | none =>
          have hred : t.deletePath p =
              ({ t.updateNode x0 (fun n => ⟨none, n.next⟩) with len := t.len - 1 },
                some v) := by
            simp only [Trie.deletePath, hchain, hx0, htx, hget2, hsc]
          rw [hred]
          exact ⟨rfl, rfl, fun q hq =>
            Trie.clearValue_frame t x0 p (t.len - 1) hwf hnav q hq⟩
        | some ci =>
          by_cases hlt : ci < p.length
          · have hzx : chain.getD ci 0 ≠ x0 := by
              intro heq
              have h1 := hctake ci (Nat.le_of_lt hlt)
              rw [heq] at h1
              have h2 := Trie.navKey_inj t hwf (p.take ci) p _ h1 hnav
              have h3 := congrArg List.length h2
              rw [List.length_take] at h3
              omega
            obtain ⟨nz, hnz, hzchild⟩ := hcstep ci hlt
            have hnz1 : alookup (chain.getD ci 0)
                ({ t.updateNode x0 (fun n => ⟨none, n.next⟩) with
                  len := t.len - 1 } : Trie T).arena = some nz := by
              show alookup (chain.getD ci 0)
                (t.updateNode x0 (fun n => (⟨none, n.next⟩ : TrieNode T))).arena = some nz
              rw [Trie.lookup_updateNode, if_neg hzx, hnz]
            have hpw : (chain.enum.reverse).Pairwise (fun a b => b.1 < a.1) := by
              rw [List.pairwise_reverse]
              have h1 : (chain.enum.map Prod.fst).Pairwise (· < ·) := by
                rw [List.enum_map_fst]
                exact List.pairwise_lt_range chain.length
              exact (List.pairwise_map).mp h1
            have hmementry : ∀ j, j < chain.length →
                (j, chain.getD j 0) ∈ chain.enum.reverse := by
              intro j hj
              rw [List.mem_reverse, List.mem_enum_iff_getElem?]
              show chain[j]? = some (chain.getD j 0)
              rw [List.getElem?_eq_getElem hj, List.getD_eq_getElem chain 0 hj]
            have hF : ∀ j, ci < j → j ≤ p.length →
                ∃ nj, alookup (chain.getD j 0) t.arena = some nj ∧
                  (j = p.length → nj.hasChild = false) ∧
                  (j ≠ p.length → nj.value = none ∧ nj.hasMultipleChildren = false) := by
              intro j hjgt hjle
              have hjlt : j < chain.length := by omega
              obtain ⟨nj, hnj, h1, h2⟩ := Trie.scanClean_gt t (chain.length - 1)
                chain.enum.reverse ci hsc hpw (j, chain.getD j 0) (hmementry j hjlt)
                (show ci < j from hjgt)
              refine ⟨nj, hnj, ?_, ?_⟩
              · intro hjm
                exact h1 (by omega)
              · intro hjm
                exact h2 (by omega)
            have hred : t.deletePath p =
                ((({ t.updateNode x0 (fun n => ⟨none, n.next⟩) with
                    len := t.len - 1 } : Trie T).updateNode (chain.getD ci 0)
                      (fun n => n.childRemove (p.getD ci 0))).removeKeys
                  ((({ t.updateNode x0 (fun n => ⟨none, n.next⟩) with
                    len := t.len - 1 } : Trie T).updateNode (chain.getD ci 0)
                      (fun n => n.childRemove (p.getD ci 0))).cleanupCollect
                        (chain.getD (ci + 1) 0)), some v) := by
              simp only [Trie.deletePath, hchain, hx0, htx, hget2, hsc, if_pos hlt,
                hnz1, hzchild]
            rw [hred]
            refine ⟨rfl, rfl, ?_⟩
            intro q hq
            exact Trie.deleteCleanup_frame t p chain ci hwf hctake hcstep hF hlt
              ({ t.updateNode x0 (fun n => ⟨none, n.next⟩) with len := t.len - 1 })
              (({ t.updateNode x0 (fun n => ⟨none, n.next⟩) with
                len := t.len - 1 } : Trie T).updateNode (chain.getD ci 0)
                  (fun n => n.childRemove (p.getD ci 0)))
              ((({ t.updateNode x0 (fun n => ⟨none, n.next⟩) with
                len := t.len - 1 } : Trie T).updateNode (chain.getD ci 0)
                  (fun n => n.childRemove (p.getD ci 0))).removeKeys
                ((({ t.updateNode x0 (fun n => ⟨none, n.next⟩) with
                  len := t.len - 1 } : Trie T).updateNode (chain.getD ci 0)
                    (fun n => n.childRemove (p.getD ci 0))).cleanupCollect
                      (chain.getD (ci + 1) 0)))
              ((({ t.updateNode x0 (fun n => ⟨none, n.next⟩) with
                len := t.len - 1 } : Trie T).updateNode (chain.getD ci 0)
                  (fun n => n.childRemove (p.getD ci 0))).cleanupCollect
                    (chain.getD (ci + 1) 0))
              (by rw [hxD]) rfl rfl rfl q hq
          · have hred : t.deletePath p =
                ({ t.updateNode x0 (fun n => ⟨none, n.next⟩) with len := t.len - 1 },
                  some v) := by
              simp only [Trie.deletePath, hchain, hx0, htx, hget2, hsc, if_neg hlt]
            rw [hred]
            exact ⟨rfl, rfl, fun q hq =>
              Trie.clearValue_frame t x0 p (t.len - 1) hwf hnav q hq⟩


/-- C5: delete non-interference. On a well-formed arena trie (src/trie.rs),
deleting a present key returns its value, decrements the stored length by
exactly one, and leaves the result of get at every other key unchanged (so it
never removes an ancestor key value and never affects a sibling branch); and
concretely, after inserting "car", "cat", "card", "care", deleting "card" and
then "care" leaves "car" and "cat" retrievable with the length decreasing by
exactly one at each delete. -/
theorem claim_C5_delete_noninterference {T : Type} (t : Trie T) (key : List Byte)
    (v : T) (hwf : t.wf = true) (hget : t.get key = some v) :
    ((t.delete key).2 = some v ∧ (t.delete key).1.len = t.len - 1 ∧
      ∀ key2 : List Byte, key2 ≠ key → (t.delete key).1.get key2 = t.get key2) ∧
    (let e : Trie Nat × Option Nat := (Trie.new, none)
     let s1 := ((Trie.new : Trie Nat).insert [99, 97, 114] 1).getD e
     let s2 := (s1.1.insert [99, 97, 116] 2).getD e
     let s3 := (s2.1.insert [99, 97, 114, 100] 3).getD e
     let s4 := (s3.1.insert [99, 97, 114, 101] 4).getD e
     let d1 := s4.1.delete [99, 97, 114, 100]
     let d2 := d1.1.delete [99, 97, 114, 101]
     s4.1.len = 4 ∧ d1.2 = some 3 ∧ d1.1.len = 3 ∧
     d1.1.get [99, 97, 114] = some 1 ∧ d1.1.get [99, 97, 116] = some 2 ∧
     d2.2 = some 4 ∧ d2.1.len = 2 ∧
     d2.1.get [99, 97, 114] = some 1 ∧ d2.1.get [99, 97, 116] = some 2) := by
  constructor
  · obtain ⟨h1, h2, h3⟩ := Trie.deletePath_spec t (buildPath key) v hwf hget
    exact ⟨h1, h2, fun key2 hne =>
      h3 (buildPath key2) (fun hc => hne (buildPath_injective key2 key hc))⟩
  · decide

theorem claim_C5_delete_noninterference_witness :
    (((((((Trie.new : Trie Nat).insert [99, 97, 114] 1).getD (Trie.new, none)).1.insert
        [99, 97, 116] 2).getD (Trie.new, none)).1.insert
          [99, 97, 114, 100] 3).getD (Trie.new, none)).1.wf = true ∧
    (((((((Trie.new : Trie Nat).insert [99, 97, 114] 1).getD (Trie.new, none)).1.insert
        [99, 97, 116] 2).getD (Trie.new, none)).1.insert
          [99, 97, 114, 100] 3).getD (Trie.new, none)).1.get [99, 97, 114, 100] =
      some 3 ∧
    ((((((((Trie.new : Trie Nat).insert [99, 97, 114] 1).getD (Trie.new, none)).1.insert
        [99, 97, 116] 2).getD (Trie.new, none)).1.insert
          [99, 97, 114, 100] 3).getD (Trie.new, none)).1.delete [99, 97, 114, 100]).2 =
      some 3 :=
  ⟨by decide, by decide,
    ((claim_C5_delete_noninterference
      (((((((Trie.new : Trie Nat).insert [99, 97, 114] 1).getD (Trie.new, none)).1.insert
        [99, 97, 116] 2).getD (Trie.new, none)).1.insert
          [99, 97, 114, 100] 3).getD (Trie.new, none)).1
      [99, 97, 114, 100] 3 (by decide) (by decide)).1).1⟩

end HardlyTrie
